import Mathlib

/-!
Verification of the laforge revision-tracking core.

This file gives a shallow embedding, in Lean 4, of the revision-record
component of the laforge repository (package `core`, file `revision.go`,
together with `remote_state_config.go` and `core/formatter/formatter.go`),
and proves or refutes the specification claims about it.

Conventions of the embedding:
* Go strings are Lean `String`s (a Go string type alias such as `LFType`
  becomes an abbreviation of `String`, with the same named constants).
* Go `uint64` is `Nat`, reduced `% 2 ^ 64` wherever overflow can occur.
* Go `time.Time` values are kept abstract as the RFC3339 text that the
  record persists; `time.Now()` becomes an explicit `now` argument.
* Go maps (`map[string]string`) are association lists.
* A Go function that can fail returns `Except`/`Option`; a Go panic is
  modelled as `Option.none`.
* Pointer-receiver mutation (`func (r *Revision) Touch()`) is modelled by
  returning the updated record.
-/

/-! ## Go path primitives

`revision.go` uses `path/filepath.Join`, `path/filepath.Dir` and
`path.Base`.  These are embedded faithfully on `List Char` (Unix
separator rules, which is what both Go packages implement for `/`).
-/

/-- Split a character list on `/`, keeping empty segments, as
`strings.Split(s, "/")` does.  `splitSlash [] = [[]]`. -/
def splitSlash : List Char → List (List Char)
  | [] => [[]]
  | c :: cs =>
    if c = '/' then [] :: splitSlash cs
    else
      match splitSlash cs with
      | [] => [[c]]
      | s :: rest => (c :: s) :: rest

/-- Join segments with `/` between them (inverse of `splitSlash`). -/
def renderSegs : List (List Char) → List Char
  | [] => []
  | [s] => s
  | s :: rest => s ++ '/' :: renderSegs rest

/-- The element-processing loop of Go `path.Clean`: drop empty and `.`
segments; `..` pops the previous output segment when possible, is dropped
at the root of a rooted path, and is kept at the front of a relative
path.  `acc` is the output built so far. -/
def cleanSegs (rooted : Bool) : List (List Char) → List (List Char) → List (List Char)
  | acc, [] => acc
  | acc, seg :: rest =>
    if seg = [] ∨ seg = ['.'] then cleanSegs rooted acc rest
    else if seg = ['.', '.'] then
      if acc ≠ [] ∧ acc.getLast? ≠ some ['.', '.'] then cleanSegs rooted acc.dropLast rest
      else if rooted then cleanSegs rooted acc rest
      else cleanSegs rooted (acc ++ [['.', '.']]) rest
    else cleanSegs rooted (acc ++ [seg]) rest

/-- Go `path.Clean` (equivalently `filepath.Clean` on Unix). -/
def goClean (s : String) : String :=
  if s.data = [] then "."
  else
    let rooted := s.data.head? = some '/'
    let segs := cleanSegs rooted [] (splitSlash s.data)
    if rooted then String.mk ('/' :: renderSegs segs)
    else if segs = [] then "." else String.mk (renderSegs segs)

/-- Go `strings.Join(elems, "/")` on character data. -/
def joinSlash : List String → List Char
  | [] => []
  | [s] => s.data
  | s :: rest => s.data ++ '/' :: joinSlash rest

/-- Go `filepath.Join`: skip leading empty elements, join the rest with
`/`, and `Clean` the result; all-empty input gives `""`. -/
def goJoin (elems : List String) : String :=
  match elems.dropWhile (fun e => e == "") with
  | [] => ""
  | es => goClean (String.mk (joinSlash es))

/-- Go `path.Base`: `""` gives `"."`; trailing slashes are stripped; the
part after the last remaining slash is returned; an all-slash input gives
`"/"`. -/
def goBase (p : String) : String :=
  if p.data = [] then "."
  else
    let r1 := p.data.reverse.dropWhile (fun c => c == '/')
    if r1 = [] then "/"
    else String.mk (r1.takeWhile (fun c => c != '/')).reverse

/-- Go `filepath.Dir`: everything up to and including the final slash,
then `Clean`ed (`Clean("")` is `"."`). -/
def goDir (p : String) : String :=
  goClean (String.mk (p.data.reverse.dropWhile (fun c => c != '/')).reverse)

/-! ## Core string-backed enumerations

`type RevStatus string`, `type RevMod string` and their constants are
taken verbatim from `revision.go`.  `type LFType string` is referenced by
`revision.go` but its declaration and constants are not part of the
sources at hand. -/

/-- Go `type RevStatus string` (revision.go). -/
abbrev RevStatus := String

/-- Go `type RevMod string` (revision.go). -/
abbrev RevMod := String

/-- Modelled from the spec: Go `type LFType string`; the `LFType`
declaration and its constants are not among the provided sources, only
their uses in `revision.go`.  The spec lists the node kinds
(Environment, Competition, Team, Network, Host, Connection, DNSRecord,
ProvisioningStep, AMI, RemoteState, Script/Command, User), each kind
naming a distinct string constant used in file-name conventions. -/
abbrev LFType := String

def RevStatusUnknown : RevStatus := "UNKNOWN"

def RevStatusStale : RevStatus := "STALE"

def RevStatusActive : RevStatus := "ACTIVE"

def RevStatusPlanned : RevStatus := "PLANNED"

def RevStatusFailed : RevStatus := "FAILED"

def RevModTouch : RevMod := "TOUCH"

def RevModDelete : RevMod := "DELETE"

def RevModCreate : RevMod := "CREATE"

def RevModRebuild : RevMod := "REBUILD"

/-- Modelled from the spec: the Environment node kind constant. -/
def LFTypeEnvironment : LFType := "environment"

/-- Modelled from the spec: the Connection node kind constant. -/
def LFTypeConnection : LFType := "connection"

/-- Modelled from the spec: the ProvisioningStep node kind constant. -/
def LFTypeProvisioningStep : LFType := "provisioning_step"

/-- Modelled from the spec: the remaining node kind constants. -/
def LFTypeCompetition : LFType := "competition"

def LFTypeTeam : LFType := "team"

def LFTypeNetwork : LFType := "network"

def LFTypeHost : LFType := "host"

def LFTypeDNSRecord : LFType := "dnsrecord"

def LFTypeAMI : LFType := "ami"

def LFTypeRemoteState : LFType := "remote_state"

def LFTypeCommand : LFType := "command"

def LFTypeUser : LFType := "user"

/-- Modelled from the spec: the closed set of node kinds. -/
def knownLFTypes : List LFType :=
  [LFTypeEnvironment, LFTypeCompetition, LFTypeTeam, LFTypeNetwork,
   LFTypeHost, LFTypeConnection, LFTypeDNSRecord, LFTypeProvisioningStep,
   LFTypeAMI, LFTypeRemoteState, LFTypeCommand, LFTypeUser]

/-- The persisted timestamp (`time.Time`), kept abstract as its RFC3339
text. -/
abbrev LFTime := String

/-! ## The Revision record (revision.go) -/

/-- Go `type Revision struct` from `revision.go`.  The Go field `Type` is
spelled `Typ` here because `Type` is reserved in Lean; all other field
names match the source. -/
structure Revision where
  ID : String
  Typ : LFType
  Status : RevStatus
  Checksum : Nat
  Timestamp : LFTime
  ExternalID : String
  Vars : List (String × String)
deriving Repr, DecidableEq

/-- Go `func (r *Revision) Touch() *Revision` — sets status `ACTIVE` and the
current timestamp. -/
def Revision.Touch (r : Revision) (now : LFTime) : Revision :=
  { r with Status := RevStatusActive, Timestamp := now }

/-- Go `func (r *Revision) TouchWithID(s string) *Revision` — `Touch`, then
store the external ID. -/
def Revision.TouchWithID (r : Revision) (s : String) (now : LFTime) : Revision :=
  { r.Touch now with ExternalID := s }

/-- Go `func (r *Revision) Taint() *Revision` — status `STALE`, current
timestamp, checksum the literal sentinel `666`. -/
def Revision.Taint (r : Revision) (now : LFTime) : Revision :=
  { r with Status := RevStatusStale, Timestamp := now, Checksum := 666 }

/-- Go `func (r *Revision) Filename() string`. -/
def Revision.Filename (r : Revision) : String :=
  if r.Typ == LFTypeProvisioningStep then
    ("." ++ goBase r.ID ++ ".pstep.lfrevision")
  else
    ("." ++ r.Typ ++ ".lfrevision")

/-- Go `func (r *Revision) AbsPath(basedir string) string`. -/
def Revision.AbsPath (r : Revision) (basedir : String) : String :=
  if r.Typ == LFTypeEnvironment then (".env.lfrevision")
  else if r.Typ == LFTypeConnection then
    goJoin [basedir, goDir r.ID, r.Filename]
  else
    goJoin [basedir, r.ID, r.Filename]

/-! ## Claims C3, C4, C5: the record mutators -/

/-- C3.  Taint postcondition and frame: `Taint` sets `Status` to `STALE`
and `Checksum` to the fixed sentinel `666`, refreshes `Timestamp`, and
leaves `ID`, `Type`, `ExternalID` and `Vars` unchanged; the record is
transformed in place, never deleted. -/
theorem taint_postcondition_and_frame (r : Revision) (now : LFTime) :
    (r.Taint now).Status = RevStatusStale ∧
    (r.Taint now).Checksum = 666 ∧
    (r.Taint now).Timestamp = now ∧
    (r.Taint now).ID = r.ID ∧
    (r.Taint now).Typ = r.Typ ∧
    (r.Taint now).ExternalID = r.ExternalID ∧
    (r.Taint now).Vars = r.Vars := by
  refine ⟨rfl, rfl, rfl, rfl, rfl, rfl, rfl⟩

/-- C4.  Touch frame: `Touch` sets `Status` to `ACTIVE` and refreshes
`Timestamp`; `ID`, `Type`, `Checksum`, `ExternalID` and `Vars` are
unchanged. -/
theorem touch_frame (r : Revision) (now : LFTime) :
    (r.Touch now).Status = RevStatusActive ∧
    (r.Touch now).Timestamp = now ∧
    (r.Touch now).ID = r.ID ∧
    (r.Touch now).Typ = r.Typ ∧
    (r.Touch now).Checksum = r.Checksum ∧
    (r.Touch now).ExternalID = r.ExternalID ∧
    (r.Touch now).Vars = r.Vars := by
  refine ⟨rfl, rfl, rfl, rfl, rfl, rfl, rfl⟩

/-- C5.  TouchWithID postcondition: `TouchWithID r s` is exactly
`Touch r` followed by the assignment `ExternalID := s`; afterwards the
status is `ACTIVE`, the external ID is `s`, the timestamp is refreshed,
and `ID`, `Type`, `Checksum` and `Vars` are unchanged. -/
theorem touchWithID_postcondition (r : Revision) (s : String) (now : LFTime) :
    r.TouchWithID s now = { r.Touch now with ExternalID := s } ∧
    (r.TouchWithID s now).Status = RevStatusActive ∧
    (r.TouchWithID s now).ExternalID = s ∧
    (r.TouchWithID s now).Timestamp = now ∧
    (r.TouchWithID s now).ID = r.ID ∧
    (r.TouchWithID s now).Typ = r.Typ ∧
    (r.TouchWithID s now).Checksum = r.Checksum ∧
    (r.TouchWithID s now).Vars = r.Vars := by
  refine ⟨rfl, rfl, rfl, rfl, rfl, rfl, rfl, rfl⟩

/-! ## Claim C6: the external-id invariant over operation sequences -/

/-- Modelled from the spec: the default "unknown" record the Revision
Store supplies when no record exists on disk for a node (zero-valued
apart from identity and kind). -/
def defaultRevision (id : String) (typ : LFType) : Revision :=
  { ID := id, Typ := typ, Status := RevStatusUnknown, Checksum := 0,
    Timestamp := "", ExternalID := "", Vars := [] }

/-- One record-mutating operation of `revision.go`, with the wall-clock
argument made explicit. -/
inductive RevOp where
  | touch (now : LFTime)
  | touchWithID (s : String) (now : LFTime)
  | taint (now : LFTime)
deriving Repr, DecidableEq

/-- Apply one operation to a record. -/
def applyOp (r : Revision) : RevOp → Revision
  | .touch now => r.Touch now
  | .touchWithID s now => r.TouchWithID s now
  | .taint now => r.Taint now

/-- Run a sequence of record-mutating operations. -/
def runOps (r : Revision) (ops : List RevOp) : Revision :=
  ops.foldl applyOp r

/-- The usage discipline the spec ascribes to the orchestrator: `Touch`
is only used once the resource has already been created externally
(`created = true`), and the external id stamped by `TouchWithID` — the
id returned by the external system on creation — is never empty. -/
def Disciplined : Bool → List RevOp → Bool
  | _, [] => true
  | created, RevOp.touch _ :: rest => created && Disciplined created rest
  | _, RevOp.touchWithID s _ :: rest => (s != "") && Disciplined true rest
  | created, RevOp.taint _ :: rest => Disciplined created rest

theorem runOps_append (r : Revision) (p q : List RevOp) :
    runOps r (p ++ q) = runOps (runOps r p) q :=
  List.foldl_append ..

theorem runOps_extid_ne (ops : List RevOp) :
    ∀ created (r : Revision), Disciplined created ops = true →
      r.ExternalID ≠ "" → (runOps r ops).ExternalID ≠ "" := by
  induction ops with
  | nil => intro _ r _ h; exact h
  | cons op rest ih =>
    intro created r hdisc hne
    cases op with
    | touch now =>
      simp only [Disciplined, Bool.and_eq_true] at hdisc
      exact ih created _ hdisc.2 hne
    | touchWithID s now =>
      simp only [Disciplined, Bool.and_eq_true, bne_iff_ne, ne_eq] at hdisc
      exact ih true _ hdisc.2 hdisc.1
    | taint now =>
      simp only [Disciplined] at hdisc
      exact ih created _ hdisc hne

theorem disciplined_never_active_aux (ops : List RevOp) :
    ∀ created (r : Revision), Disciplined created ops = true →
      (created = true → r.ExternalID ≠ "") →
      (r.ExternalID = "" → r.Status ≠ RevStatusActive) →
      (runOps r ops).ExternalID = "" →
      ∀ p, p <+: ops →
        (runOps r p).Status ≠ RevStatusActive ∧ (runOps r p).ExternalID = "" := by
  induction ops with
  | nil =>
    intro created r _ _ hstat hfin p hp
    rw [List.prefix_nil.mp hp]
    exact ⟨hstat hfin, hfin⟩
  | cons op rest ih =>
    intro created r hdisc hcr hstat hfin p hp
    cases op with
    | touch now =>
      simp only [Disciplined, Bool.and_eq_true] at hdisc
      exact absurd hfin (runOps_extid_ne rest created _ hdisc.2 (hcr hdisc.1))
    | touchWithID s now =>
      simp only [Disciplined, Bool.and_eq_true, bne_iff_ne, ne_eq] at hdisc
      exact absurd hfin (runOps_extid_ne rest true _ hdisc.2 hdisc.1)
    | taint now =>
      simp only [Disciplined] at hdisc
      have hcr2 : created = true → (applyOp r (RevOp.taint now)).ExternalID ≠ "" := hcr
      have hstat2 : (applyOp r (RevOp.taint now)).ExternalID = "" →
          (applyOp r (RevOp.taint now)).Status ≠ RevStatusActive := by
        intro _
        have he : (applyOp r (RevOp.taint now)).Status = RevStatusStale := rfl
        rw [he]
        decide
      have ihall := ih created _ hdisc hcr2 hstat2 hfin
      rcases List.prefix_cons_iff.mp hp with h0 | ⟨p', rfl, hp'⟩
      · subst h0
        have base := ihall [] (List.nil_prefix)
        exact ⟨hstat base.2, base.2⟩
      · exact ihall p' hp'

/-- C6, counterexample.  The claim fails on the code: starting from a
fresh (default) record, the single-operation sequence `[Touch]` produces
a record whose `Status` is `ACTIVE` while its `ExternalID` is still
empty — `Touch` sets `ACTIVE` without guaranteeing a non-empty external
id. -/
theorem external_id_invariant_counterexample :
    (runOps (defaultRevision ("envA/host1") LFTypeHost)
        [RevOp.touch ("2020-01-01T00:00:00Z")]).ExternalID = "" ∧
    (runOps (defaultRevision ("envA/host1") LFTypeHost)
        [RevOp.touch ("2020-01-01T00:00:00Z")]).Status = RevStatusActive :=
  ⟨rfl, rfl⟩

/-- C6, amended.  Under the orchestrator discipline the spec describes —
`TouchWithID` (with the non-empty id handed back by the external system)
is used for the first successful creation, and plain `Touch` only once
the resource has already been created — the invariant holds: starting
from a record with empty `ExternalID` that has not reached `ACTIVE`, if
after the whole sequence the `ExternalID` is still empty, then no state
along the sequence ever had `Status` `ACTIVE`. -/
theorem external_id_invariant_amended (r0 : Revision) (ops : List RevOp)
    (hdisc : Disciplined false ops = true)
    (hext : r0.ExternalID = "")
    (hstat : r0.Status ≠ RevStatusActive)
    (hfin : (runOps r0 ops).ExternalID = "") :
    ∀ p, p <+: ops → (runOps r0 p).Status ≠ RevStatusActive := by
  intro p hp
  exact (disciplined_never_active_aux ops false r0 hdisc
    (fun h => absurd h (by decide)) (fun _ => hstat) hfin p hp).1

/-- C6, witness for `external_id_invariant_amended` at a concrete
disciplined sequence. -/
theorem external_id_invariant_amended_witness :
    (runOps (defaultRevision ("envA/host1") LFTypeHost)
      [RevOp.taint ("2020-01-01T00:00:00Z")]).Status ≠ RevStatusActive :=
  external_id_invariant_amended (defaultRevision ("envA/host1") LFTypeHost)
    [RevOp.taint ("2020-01-01T00:00:00Z")] (by decide) rfl (by decide) rfl
    [RevOp.taint ("2020-01-01T00:00:00Z")] (List.prefix_refl _)

/-! ## Path lemmas

Facts about `splitSlash`, `renderSegs`, `cleanSegs`, `goJoin`, `goBase`
and `goDir` needed to settle the storage-path claims C1 and C9. -/

theorem splitSlash_cons_slash (cs : List Char) :
    splitSlash ('/' :: cs) = [] :: splitSlash cs := by
  simp [splitSlash]

theorem splitSlash_ne_nil (cs : List Char) : splitSlash cs ≠ [] := by
  cases cs with
  | nil => simp [splitSlash]
  | cons c cs =>
    simp only [splitSlash]
    split
    · simp
    · split <;> simp_all

theorem splitSlash_cons_ne (c : Char) (cs : List Char) (hc : c ≠ '/')
    (s : List Char) (rest : List (List Char)) (hsp : splitSlash cs = s :: rest) :
    splitSlash (c :: cs) = (c :: s) :: rest := by
  simp only [splitSlash, if_neg hc, hsp]

theorem renderSegs_cons (s : List Char) (l : List (List Char)) (h : l ≠ []) :
    renderSegs (s :: l) = s ++ '/' :: renderSegs l := by
  cases l with
  | nil => exact absurd rfl h
  | cons t ts => rfl

theorem renderSegs_splitSlash (cs : List Char) :
    renderSegs (splitSlash cs) = cs := by
  induction cs with
  | nil => rfl
  | cons c cs ih =>
    by_cases hc : c = '/'
    · subst hc
      rw [splitSlash_cons_slash, renderSegs_cons _ _ (splitSlash_ne_nil cs), ih]
      rfl
    · rcases hsp : splitSlash cs with _ | ⟨s, rest⟩
      · exact absurd hsp (splitSlash_ne_nil cs)
      · rw [splitSlash_cons_ne c cs hc s rest hsp]
        rw [hsp] at ih
        cases rest with
        | nil => simpa [renderSegs] using ih
        | cons t ts =>
          rw [renderSegs_cons _ _ (by simp)] at ih ⊢
          simpa using ih

theorem splitSlash_append (xs ys : List Char) :
    splitSlash (xs ++ '/' :: ys) = splitSlash xs ++ splitSlash ys := by
  induction xs with
  | nil => simp [splitSlash_cons_slash, splitSlash]
  | cons c cs ih =>
    by_cases hc : c = '/'
    · subst hc
      rw [List.cons_append, splitSlash_cons_slash, splitSlash_cons_slash, ih]
      rfl
    · rcases hsp : splitSlash cs with _ | ⟨s, rest⟩
      · exact absurd hsp (splitSlash_ne_nil cs)
      · have hsp2 : splitSlash (cs ++ '/' :: ys) = s :: (rest ++ splitSlash ys) := by
          rw [ih, hsp]; rfl
        rw [List.cons_append, splitSlash_cons_ne c _ hc _ _ hsp2,
          splitSlash_cons_ne c cs hc s rest hsp]
        rfl

theorem not_slash_mem_splitSlash (cs : List Char) :
    ∀ seg ∈ splitSlash cs, '/' ∉ seg := by
  induction cs with
  | nil => simp [splitSlash]
  | cons c cs ih =>
    by_cases hc : c = '/'
    · subst hc
      rw [splitSlash_cons_slash]
      intro seg hseg
      rcases List.mem_cons.mp hseg with h | h
      · simp [h]
      · exact ih seg h
    · rcases hsp : splitSlash cs with _ | ⟨s, rest⟩
      · exact absurd hsp (splitSlash_ne_nil cs)
      · rw [splitSlash_cons_ne c cs hc s rest hsp]
        intro seg hseg
        rcases List.mem_cons.mp hseg with h | h
        · subst h
          intro hmem
          rcases List.mem_cons.mp hmem with h | h
          · exact hc h.symm
          · exact ih s (by rw [hsp]; exact List.mem_cons_self ..) h
        · exact ih seg (by rw [hsp]; exact List.mem_cons_of_mem _ h)

theorem splitSlash_of_not_slash (cs : List Char) (h : '/' ∉ cs) :
    splitSlash cs = [cs] := by
  induction cs with
  | nil => rfl
  | cons c cs ih =>
    have hc : c ≠ '/' := fun he => h (he ▸ List.mem_cons_self ..)
    have hcs : '/' ∉ cs := fun hm => h (List.mem_cons_of_mem _ hm)
    rw [splitSlash_cons_ne c cs hc cs [] (ih hcs)]

theorem splitSlash_renderSegs (l : List (List Char)) (hne : l ≠ [])
    (hs : ∀ seg ∈ l, '/' ∉ seg) :
    splitSlash (renderSegs l) = l := by
  induction l with
  | nil => exact absurd rfl hne
  | cons s rest ih =>
    cases rest with
    | nil =>
      exact splitSlash_of_not_slash s (hs s (List.mem_cons_self ..))
    | cons t ts =>
      rw [renderSegs_cons _ _ (by simp), splitSlash_append,
        splitSlash_of_not_slash s (hs s (List.mem_cons_self ..)),
        ih (by simp) (fun seg hseg => hs seg (List.mem_cons_of_mem _ hseg))]
      rfl

theorem renderSegs_append (l1 l2 : List (List Char)) (h1 : l1 ≠ []) (h2 : l2 ≠ []) :
    renderSegs (l1 ++ l2) = renderSegs l1 ++ '/' :: renderSegs l2 := by
  induction l1 with
  | nil => exact absurd rfl h1
  | cons s rest ih =>
    cases rest with
    | nil =>
      cases l2 with
      | nil => exact absurd rfl h2
      | cons t ts =>
        rw [List.singleton_append, renderSegs_cons _ _ (by simp)]
        rfl
    | cons u us =>
      rw [List.cons_append, renderSegs_cons _ _ (by simp),
        renderSegs_cons _ _ (by simp), ih (by simp)]
      simp

/-- The segments `cleanSegs` keeps when no `..` appears. -/
def keepSeg (s : List Char) : Bool := !(s == [] || s == ['.'])

theorem cleanSegs_no_dotdot (rooted : Bool) (l : List (List Char)) :
    ∀ acc, (∀ seg ∈ l, seg ≠ ['.', '.']) →
      cleanSegs rooted acc l = acc ++ l.filter keepSeg := by
  induction l with
  | nil => intro acc _; simp [cleanSegs]
  | cons seg rest ih =>
    intro acc hl
    have hseg : seg ≠ ['.', '.'] := hl seg (List.mem_cons_self ..)
    have hrest : ∀ s ∈ rest, s ≠ ['.', '.'] := fun s hs => hl s (List.mem_cons_of_mem _ hs)
    by_cases he : seg = [] ∨ seg = ['.']
    · rw [cleanSegs, if_pos he, ih acc hrest, List.filter_cons]
      have hks : keepSeg seg = false := by
        rcases he with h | h <;> simp [keepSeg, h]
      rw [hks]
      simp
    · rw [cleanSegs, if_neg he, if_neg hseg, ih (acc ++ [seg]) hrest, List.filter_cons]
      have hks : keepSeg seg = true := by
        have h2 := not_or.mp he
        simp only [keepSeg, Bool.not_eq_true', Bool.or_eq_false_iff]
        exact ⟨by simpa using h2.1, by simpa using h2.2⟩
      rw [hks]
      simp

theorem takeWhile_all_true {α : Type} (p : α → Bool) (xs : List α)
    (h : ∀ x ∈ xs, p x = true) : xs.takeWhile p = xs := by
  induction xs with
  | nil => rfl
  | cons x xs ih =>
    rw [List.takeWhile_cons, h x (List.mem_cons_self ..),
      ih (fun y hy => h y (List.mem_cons_of_mem _ hy))]
    simp

theorem takeWhile_append_stop {α : Type} (p : α → Bool) (xs : List α) (y : α)
    (ys : List α) (hxs : ∀ x ∈ xs, p x = true) (hy : p y = false) :
    (xs ++ y :: ys).takeWhile p = xs := by
  induction xs with
  | nil => simp [List.takeWhile_cons, hy]
  | cons x xs ih =>
    rw [List.cons_append, List.takeWhile_cons, hxs x (List.mem_cons_self ..),
      ih (fun z hz => hxs z (List.mem_cons_of_mem _ hz))]
    simp

theorem dropWhile_all_true {α : Type} (p : α → Bool) (xs : List α)
    (h : ∀ x ∈ xs, p x = true) : xs.dropWhile p = [] := by
  induction xs with
  | nil => rfl
  | cons x xs ih =>
    rw [List.dropWhile_cons, h x (List.mem_cons_self ..)]
    · exact ih (fun y hy => h y (List.mem_cons_of_mem _ hy))

theorem dropWhile_append_stop {α : Type} (p : α → Bool) (xs : List α) (y : α)
    (ys : List α) (hxs : ∀ x ∈ xs, p x = true) (hy : p y = false) :
    (xs ++ y :: ys).dropWhile p = y :: ys := by
  induction xs with
  | nil => simp [List.dropWhile_cons, hy]
  | cons x xs ih =>
    rw [List.cons_append, List.dropWhile_cons, hxs x (List.mem_cons_self ..)]
    · exact ih (fun z hz => hxs z (List.mem_cons_of_mem _ hz))

theorem dropWhile_head_false {α : Type} (p : α → Bool) (x : α) (xs : List α)
    (h : p x = false) : (x :: xs).dropWhile p = x :: xs := by
  rw [List.dropWhile_cons, h]
  rfl

/-- A well-formed relative path: non-empty, and every `/`-separated
segment is non-empty and is neither `.` nor `..`.  Node identities and
base directories of a build tree have this shape. -/
def validRel (s : String) : Bool :=
  !s.data.isEmpty &&
    (splitSlash s.data).all (fun seg => !seg.isEmpty && seg != ['.'] && seg != ['.', '.'])

theorem validRel_data_ne (s : String) (h : validRel s = true) : s.data ≠ [] := by
  have := (Bool.and_eq_true ..).mp h
  simpa using this.1

theorem validRel_seg (s : String) (h : validRel s = true) :
    ∀ seg ∈ splitSlash s.data, seg ≠ [] ∧ seg ≠ ['.'] ∧ seg ≠ ['.', '.'] := by
  have := (Bool.and_eq_true ..).mp h
  intro seg hseg
  have h2 := List.all_eq_true.mp this.2 seg hseg
  simp only [Bool.and_eq_true, bne_iff_ne, ne_eq] at h2
  refine ⟨by simpa using h2.1.1, h2.1.2, h2.2⟩

theorem validRel_head (s : String) (h : validRel s = true) :
    s.data.head? ≠ some '/' := by
  intro hh
  rcases hd : s.data with _ | ⟨c, cs⟩
  · exact validRel_data_ne s h hd
  · rw [hd] at hh
    have hc : c = '/' := by simpa using hh
    subst hc
    have : ([] : List Char) ∈ splitSlash s.data := by
      rw [hd, splitSlash_cons_slash]
      exact List.mem_cons_self ..
    exact (validRel_seg s h [] this).1 rfl

theorem filter_keepSeg_eq_self (l : List (List Char))
    (h : ∀ seg ∈ l, seg ≠ [] ∧ seg ≠ ['.']) : l.filter keepSeg = l := by
  refine List.filter_eq_self.mpr (fun s hs => ?_)
  have h2 := h s hs
  simp only [keepSeg, Bool.not_eq_true', Bool.or_eq_false_iff]
  exact ⟨by simpa using h2.1, by simpa using h2.2⟩

theorem renderSegs_head (s : List Char) (rest : List (List Char)) (hs : s ≠ []) :
    (renderSegs (s :: rest)).head? = s.head? := by
  cases rest with
  | nil => rfl
  | cons t ts =>
    rw [renderSegs_cons _ _ (by simp)]
    rcases hd : s with _ | ⟨c, cs⟩
    · exact absurd hd hs
    · rfl

theorem renderSegs_ne_nil (l : List (List Char)) (hne : l ≠ [])
    (h : ∀ seg ∈ l, seg ≠ []) : renderSegs l ≠ [] := by
  rcases l with _ | ⟨s, rest⟩
  · exact absurd rfl hne
  · have hs : s ≠ [] := h s (List.mem_cons_self ..)
    cases rest with
    | nil => exact hs
    | cons t ts =>
      rw [renderSegs_cons _ _ (by simp)]
      rcases hd : s with _ | ⟨c, cs⟩
      · exact absurd hd hs
      · simp

theorem goClean_of_good (cs : List Char) (hne : cs ≠ [])
    (hhead : ¬cs.head? = some '/')
    (hsegs : ∀ seg ∈ splitSlash cs, seg ≠ ['.', '.'])
    (hkeep : (splitSlash cs).filter keepSeg ≠ []) :
    goClean (String.mk cs) = String.mk (renderSegs ((splitSlash cs).filter keepSeg)) := by
  simp only [goClean]
  rw [if_neg hne, if_neg hhead, decide_eq_false hhead,
    cleanSegs_no_dotdot false (splitSlash cs) [] hsegs,
    List.nil_append, if_neg hkeep]

theorem goJoin_cons_ne (e : String) (tl : List String) (hne : e.data ≠ []) :
    goJoin (e :: tl) = goClean (String.mk (joinSlash (e :: tl))) := by
  have hb : (e == "") = false := by
    refine beq_eq_false_iff_ne.mpr (fun he => ?_)
    rw [he] at hne
    exact hne rfl
  simp only [goJoin, List.dropWhile_cons, hb]
  rfl

theorem joinSlash_three (a b c : String) :
    joinSlash [a, b, c] = a.data ++ '/' :: (b.data ++ '/' :: c.data) := rfl

theorem splitSlash_joinSlash_three (a b c : String) :
    splitSlash (joinSlash [a, b, c]) =
      splitSlash a.data ++ (splitSlash b.data ++ splitSlash c.data) := by
  rw [joinSlash_three, splitSlash_append, splitSlash_append]

theorem head_append_ne (a : List Char) (rest : List Char) (ha : a ≠ [])
    (hh : ¬a.head? = some '/') : ¬(a ++ rest).head? = some '/' := by
  rcases a with _ | ⟨c, cs⟩
  · exact absurd rfl ha
  · simpa using hh

theorem goJoin_three (a b c : String) (ha : validRel a = true)
    (hb : validRel b = true) (hc : validRel c = true) :
    goJoin [a, b, c] =
      String.mk (renderSegs (splitSlash a.data ++ splitSlash b.data ++ splitSlash c.data)) := by
  rw [goJoin_cons_ne a [b, c] (validRel_data_ne a ha),
    goClean_of_good (joinSlash [a, b, c])]
  · rw [splitSlash_joinSlash_three,
      filter_keepSeg_eq_self _ (fun seg hseg => ?_), List.append_assoc]
    rcases List.mem_append.mp hseg with h | h
    · exact ⟨(validRel_seg a ha seg h).1, (validRel_seg a ha seg h).2.1⟩
    · rcases List.mem_append.mp h with h2 | h2
      · exact ⟨(validRel_seg b hb seg h2).1, (validRel_seg b hb seg h2).2.1⟩
      · exact ⟨(validRel_seg c hc seg h2).1, (validRel_seg c hc seg h2).2.1⟩
  · rw [joinSlash_three]
    intro he
    exact validRel_data_ne a ha (List.append_eq_nil.mp he).1
  · rw [joinSlash_three]
    exact head_append_ne a.data _ (validRel_data_ne a ha) (validRel_head a ha)
  · rw [splitSlash_joinSlash_three]
    intro seg hseg
    rcases List.mem_append.mp hseg with h | h
    · exact (validRel_seg a ha seg h).2.2
    · rcases List.mem_append.mp h with h2 | h2
      · exact (validRel_seg b hb seg h2).2.2
      · exact (validRel_seg c hc seg h2).2.2
  · rw [splitSlash_joinSlash_three,
      filter_keepSeg_eq_self _ (fun seg hseg => ?_)]
    · intro he
      exact splitSlash_ne_nil a.data (List.append_eq_nil.mp he).1
    · rcases List.mem_append.mp hseg with h | h
      · exact ⟨(validRel_seg a ha seg h).1, (validRel_seg a ha seg h).2.1⟩
      · rcases List.mem_append.mp h with h2 | h2
        · exact ⟨(validRel_seg b hb seg h2).1, (validRel_seg b hb seg h2).2.1⟩
        · exact ⟨(validRel_seg c hc seg h2).1, (validRel_seg c hc seg h2).2.1⟩

theorem goJoin_three_dotMiddle (a c : String) (ha : validRel a = true)
    (hc : validRel c = true) :
    goJoin [a, ".", c] =
      String.mk (renderSegs (splitSlash a.data ++ splitSlash c.data)) := by
  have hsp : splitSlash (joinSlash [a, ".", c]) =
      splitSlash a.data ++ ([['.']] ++ splitSlash c.data) := by
    rw [splitSlash_joinSlash_three]
    rfl
  have hfilter : (splitSlash (joinSlash [a, ".", c])).filter keepSeg =
      splitSlash a.data ++ splitSlash c.data := by
    rw [hsp, List.filter_append, List.filter_append,
      filter_keepSeg_eq_self _ (fun seg hseg =>
        ⟨(validRel_seg a ha seg hseg).1, (validRel_seg a ha seg hseg).2.1⟩),
      filter_keepSeg_eq_self _ (fun seg hseg =>
        ⟨(validRel_seg c hc seg hseg).1, (validRel_seg c hc seg hseg).2.1⟩)]
    rfl
  rw [goJoin_cons_ne a [".", c] (validRel_data_ne a ha),
    goClean_of_good (joinSlash [a, ".", c]), hfilter]
  · rw [joinSlash_three]
    intro he
    exact validRel_data_ne a ha (List.append_eq_nil.mp he).1
  · rw [joinSlash_three]
    exact head_append_ne a.data _ (validRel_data_ne a ha) (validRel_head a ha)
  · rw [hsp]
    intro seg hseg
    rcases List.mem_append.mp hseg with h | h
    · exact (validRel_seg a ha seg h).2.2
    · rcases List.mem_append.mp h with h2 | h2
      · intro he
        rw [he] at h2
        simp at h2
      · exact (validRel_seg c hc seg h2).2.2
  · rw [hfilter]
    intro he
    exact splitSlash_ne_nil a.data (List.append_eq_nil.mp he).1

theorem renderSegs_head_ne_slash (l : List (List Char)) (hne : l ≠ [])
    (hsegs : ∀ seg ∈ l, seg ≠ [] ∧ '/' ∉ seg) :
    ¬(renderSegs l).head? = some '/' := by
  rcases l with _ | ⟨s, rest⟩
  · exact absurd rfl hne
  · have hs := hsegs s (List.mem_cons_self ..)
    rw [renderSegs_head s rest hs.1]
    rcases hd : s with _ | ⟨c, cs⟩
    · exact absurd hd hs.1
    · intro hh
      have hc : c = '/' := by simpa using hh
      exact hs.2 (by rw [hd, hc]; exact List.mem_cons_self ..)

theorem goBase_decomp (p : String) (l2 : List (List Char)) (lst : List Char)
    (hv : validRel p = true) (hL2 : splitSlash p.data = l2 ++ [lst]) :
    goBase p = String.mk lst := by
  have hm : lst ∈ splitSlash p.data := by
    rw [hL2]
    exact List.mem_append_right _ (List.mem_cons_self ..)
  have hlst_ne : lst ≠ [] := (validRel_seg p hv lst hm).1
  have hlst_ns : '/' ∉ lst := not_slash_mem_splitSlash p.data lst hm
  have hall : ∀ x ∈ lst.reverse, (x != '/') = true := by
    intro x hx
    have hx2 : x ∈ lst := List.mem_reverse.mp hx
    have hx3 : x ≠ '/' := fun he => hlst_ns (he ▸ hx2)
    simpa using hx3
  have hpdata : p.data = renderSegs (l2 ++ [lst]) := by
    rw [← hL2]
    exact (renderSegs_splitSlash p.data).symm
  obtain ⟨h0, t0, hrev⟩ : ∃ h0 t0, lst.reverse = h0 :: t0 := by
    rcases hrv : lst.reverse with _ | ⟨x, xs⟩
    · exact absurd (by simpa using congrArg List.reverse hrv) hlst_ne
    · exact ⟨x, xs, rfl⟩
  have h0mem : h0 ∈ lst := by
    rw [← List.mem_reverse, hrev]
    exact List.mem_cons_self ..
  have h0ns : (h0 == '/') = false :=
    beq_eq_false_iff_ne.mpr (fun he => hlst_ns (he ▸ h0mem))
  simp only [goBase]
  rw [if_neg (validRel_data_ne p hv)]
  by_cases hl2 : l2 = []
  · have hp2 : p.data = lst := by
      rw [hpdata, hl2]
      rfl
    rw [hp2, hrev, dropWhile_head_false (fun c => c == '/') h0 t0 h0ns,
      if_neg (by simp), takeWhile_all_true (fun c => c != '/') (h0 :: t0) (hrev ▸ hall),
      ← hrev, List.reverse_reverse]
  · have hp2 : p.data = renderSegs l2 ++ '/' :: lst := by
      rw [hpdata, renderSegs_append l2 [lst] hl2 (by simp)]
      rfl
    have hrevp : p.data.reverse = lst.reverse ++ '/' :: (renderSegs l2).reverse := by
      rw [hp2, List.reverse_append, List.reverse_cons, List.append_assoc]
      rfl
    have hdw : p.data.reverse.dropWhile (fun c => c == '/') =
        lst.reverse ++ '/' :: (renderSegs l2).reverse := by
      rw [hrevp, hrev, List.cons_append,
        dropWhile_head_false (fun c => c == '/') h0 _ h0ns, ← List.cons_append, ← hrev]
    rw [hdw, if_neg (by simp [hrev]),
      takeWhile_append_stop (fun c => c != '/') lst.reverse '/' _ hall (by simp),
      List.reverse_reverse]

theorem goDir_decomp (p : String) (l2 : List (List Char)) (lst : List Char)
    (hv : validRel p = true) (hL2 : splitSlash p.data = l2 ++ [lst]) :
    goDir p = if l2 = [] then (".") else String.mk (renderSegs l2) := by
  have hm : lst ∈ splitSlash p.data := by
    rw [hL2]
    exact List.mem_append_right _ (List.mem_cons_self ..)
  have hsub : ∀ seg ∈ l2, seg ∈ splitSlash p.data := by
    intro seg hs
    rw [hL2]
    exact List.mem_append_left _ hs
  have hlst_ns : '/' ∉ lst := not_slash_mem_splitSlash p.data lst hm
  have hall : ∀ x ∈ lst.reverse, (x != '/') = true := by
    intro x hx
    have hx2 : x ∈ lst := List.mem_reverse.mp hx
    have hx3 : x ≠ '/' := fun he => hlst_ns (he ▸ hx2)
    simpa using hx3
  have hpdata : p.data = renderSegs (l2 ++ [lst]) := by
    rw [← hL2]
    exact (renderSegs_splitSlash p.data).symm
  simp only [goDir]
  by_cases hl2 : l2 = []
  · have hp2 : p.data = lst := by
      rw [hpdata, hl2]
      rfl
    rw [if_pos hl2, hp2, dropWhile_all_true (fun c => c != '/') lst.reverse hall]
    rfl
  · have hslashfree : ∀ seg ∈ l2, '/' ∉ seg :=
      fun seg hs => not_slash_mem_splitSlash p.data seg (hsub seg hs)
    have hsegne : ∀ seg ∈ l2, seg ≠ [] :=
      fun seg hs => (validRel_seg p hv seg (hsub seg hs)).1
    have hAne : renderSegs l2 ≠ [] := renderSegs_ne_nil _ hl2 hsegne
    have hp2 : p.data = renderSegs l2 ++ '/' :: lst := by
      rw [hpdata, renderSegs_append l2 [lst] hl2 (by simp)]
      rfl
    have hrevp : p.data.reverse = lst.reverse ++ '/' :: (renderSegs l2).reverse := by
      rw [hp2, List.reverse_append, List.reverse_cons, List.append_assoc]
      rfl
    have hpre : (p.data.reverse.dropWhile (fun c => c != '/')).reverse =
        renderSegs l2 ++ ['/'] := by
      rw [hrevp, dropWhile_append_stop (fun c => c != '/') lst.reverse '/' _ hall (by simp),
        List.reverse_cons, List.reverse_reverse]
    have hsplit2 : splitSlash (renderSegs l2 ++ ['/']) = l2 ++ [[]] := by
      rw [show renderSegs l2 ++ ['/'] = renderSegs l2 ++ '/' :: [] from rfl,
        splitSlash_append, splitSlash_renderSegs _ hl2 hslashfree]
      rfl
    have hfilter : (splitSlash (renderSegs l2 ++ ['/'])).filter keepSeg = l2 := by
      rw [hsplit2, List.filter_append, filter_keepSeg_eq_self _
        (fun seg hs => ⟨hsegne seg hs, (validRel_seg p hv seg (hsub seg hs)).2.1⟩)]
      have h9 : (List.filter keepSeg [([] : List Char)]) = [] := rfl
      rw [h9, List.append_nil]
    rw [if_neg hl2, hpre, goClean_of_good, hfilter]
    · simp [hAne]
    · exact head_append_ne _ _ hAne
        (renderSegs_head_ne_slash _ hl2 (fun seg hs => ⟨hsegne seg hs, hslashfree seg hs⟩))
    · rw [hsplit2]
      intro seg hs
      rcases List.mem_append.mp hs with h | h
      · exact (validRel_seg p hv seg (hsub seg h)).2.2
      · intro he
        rw [he] at h
        simp at h
    · rw [hfilter]
      exact hl2

/-! ## Filename shapes and the AbsPath normal forms -/

theorem data_filename_step (r : Revision) (h : r.Typ = LFTypeProvisioningStep) :
    (r.Filename).data = '.' :: ((goBase r.ID).data ++ (".pstep.lfrevision").data) := by
  have hb : (r.Typ == LFTypeProvisioningStep) = true := by
    rw [h]
    decide
  simp only [Revision.Filename, hb, if_pos]
  rw [String.data_append, String.data_append]
  rfl

theorem data_filename_plain (r : Revision) (h : (r.Typ == LFTypeProvisioningStep) = false) :
    (r.Filename).data = '.' :: (r.Typ.data ++ (".lfrevision").data) := by
  simp only [Revision.Filename, h]
  rw [if_neg (by simp)]
  rw [String.data_append, String.data_append]
  rfl

/-- The character content of every known node-kind constant is non-empty
and free of `/` and `.`. -/
theorem known_type_chars : ∀ t ∈ knownLFTypes,
    t.data ≠ [] ∧ '/' ∉ t.data ∧ '.' ∉ t.data := by
  decide

theorem validRel_of_single (s : String) (hne : s.data ≠ []) (hns : '/' ∉ s.data)
    (hd1 : s.data ≠ ['.']) (hd2 : s.data ≠ ['.', '.']) : validRel s = true := by
  simp only [validRel, Bool.and_eq_true, List.all_eq_true]
  refine ⟨by simpa using hne, ?_⟩
  intro seg hseg
  rw [splitSlash_of_not_slash s.data hns] at hseg
  have hs : seg = s.data := by simpa using hseg
  subst hs
  simp only [Bool.and_eq_true, bne_iff_ne, ne_eq]
  exact ⟨⟨by simpa using hne, hd1⟩, hd2⟩

/-- The filename of a record whose kind is one of the known kinds and
whose identity is a well-formed relative path is a single well-formed
path segment. -/
theorem filename_good (r : Revision) (ht : r.Typ ∈ knownLFTypes)
    (hid : validRel r.ID = true) :
    (r.Filename).data ≠ [] ∧ '/' ∉ (r.Filename).data ∧
      (r.Filename).data ≠ ['.'] ∧ (r.Filename).data ≠ ['.', '.'] := by
  by_cases hstep : r.Typ = LFTypeProvisioningStep
  · rcases List.eq_nil_or_concat (splitSlash r.ID.data) with hnil | ⟨l2, lst, hconcat⟩
    · exact absurd hnil (splitSlash_ne_nil _)
    · rw [List.concat_eq_append] at hconcat
      have hbase : goBase r.ID = String.mk lst := goBase_decomp r.ID l2 lst hid hconcat
      have hm : lst ∈ splitSlash r.ID.data := by
        rw [hconcat]
        exact List.mem_append_right _ (List.mem_cons_self ..)
      have hns : '/' ∉ lst := not_slash_mem_splitSlash r.ID.data lst hm
      rw [data_filename_step r hstep, hbase]
      refine ⟨by simp, ?_, ?_, ?_⟩
      · intro hmem
        rcases List.mem_cons.mp hmem with h | h
        · exact absurd h.symm (by decide)
        · rcases List.mem_append.mp h with h2 | h2
          · exact hns h2
          · revert h2
            decide
      · intro he
        have := congrArg List.length he
        simp at this
      · intro he
        have := congrArg List.length he
        have hlen : (".pstep.lfrevision").data.length = 17 := by decide
        simp [hlen] at this
  · have hb : (r.Typ == LFTypeProvisioningStep) = false := by
      refine beq_eq_false_iff_ne.mpr hstep
    have hchars := known_type_chars r.Typ ht
    rw [data_filename_plain r hb]
    refine ⟨by simp, ?_, ?_, ?_⟩
    · intro hmem
      rcases List.mem_cons.mp hmem with h | h
      · exact absurd h.symm (by decide)
      · rcases List.mem_append.mp h with h2 | h2
        · exact hchars.2.1 h2
        · revert h2
          decide
    · intro he
      have := congrArg List.length he
      simp at this
    · intro he
      have := congrArg List.length he
      have hlen : (".lfrevision").data.length = 11 := by decide
      simp [hlen] at this

theorem validRel_mk_render (l : List (List Char)) (hne : l ≠ [])
    (h : ∀ seg ∈ l, seg ≠ [] ∧ seg ≠ ['.'] ∧ seg ≠ ['.', '.'] ∧ '/' ∉ seg) :
    validRel (String.mk (renderSegs l)) = true := by
  have hsplit : splitSlash (String.mk (renderSegs l)).data = l :=
    splitSlash_renderSegs l hne (fun seg hs => (h seg hs).2.2.2)
  simp only [validRel, Bool.and_eq_true, List.all_eq_true]
  constructor
  · have h2 : renderSegs l ≠ [] := renderSegs_ne_nil l hne (fun seg hs => (h seg hs).1)
    simpa using h2
  · intro seg hseg
    rw [hsplit] at hseg
    have h2 := h seg hseg
    simp only [Bool.and_eq_true, bne_iff_ne, ne_eq]
    exact ⟨⟨by simpa using h2.1, h2.2.1⟩, h2.2.2.1⟩

/-- The segment list underlying the on-disk location of a non-Environment
record: base directory segments, then the identity-derived directory
segments (for a Connection, the identity's parent directory), then the
record's filename as the final segment. -/
def pathSegsOf (r : Revision) (b : String) : List (List Char) :=
  splitSlash b.data ++
    (if r.Typ == LFTypeConnection then (splitSlash r.ID.data).dropLast
     else splitSlash r.ID.data) ++ [(r.Filename).data]

theorem absPath_data (r : Revision) (b : String) (hb : validRel b = true)
    (hid : validRel r.ID = true) (ht : r.Typ ∈ knownLFTypes)
    (henv : r.Typ ≠ LFTypeEnvironment) :
    r.AbsPath b = String.mk (renderSegs (pathSegsOf r b)) := by
  have hfn := filename_good r ht hid
  have hfnv : validRel r.Filename = true :=
    validRel_of_single _ hfn.1 hfn.2.1 hfn.2.2.1 hfn.2.2.2
  have hsplitfn : splitSlash (r.Filename).data = [(r.Filename).data] :=
    splitSlash_of_not_slash _ hfn.2.1
  have hbe : (r.Typ == LFTypeEnvironment) = false := beq_eq_false_iff_ne.mpr henv
  by_cases hconn : r.Typ = LFTypeConnection
  · have hbc : (r.Typ == LFTypeConnection) = true := by
      rw [hconn]
      decide
    have habs : r.AbsPath b = goJoin [b, goDir r.ID, r.Filename] := by
      simp only [Revision.AbsPath, hbe, hbc, Bool.false_eq_true, if_false, if_true]
    rcases List.eq_nil_or_concat (splitSlash r.ID.data) with hnil | ⟨l2, lst, hconcat⟩
    · exact absurd hnil (splitSlash_ne_nil _)
    · rw [List.concat_eq_append] at hconcat
      have hdir := goDir_decomp r.ID l2 lst hid hconcat
      have hdrop : (splitSlash r.ID.data).dropLast = l2 := by
        rw [hconcat]
        simp
      have hsegs : pathSegsOf r b =
          splitSlash b.data ++ l2 ++ [(r.Filename).data] := by
        simp only [pathSegsOf, hbc, if_true, hdrop]
      by_cases hl2 : l2 = []
      · rw [habs, hdir, if_pos hl2, goJoin_three_dotMiddle b r.Filename hb hfnv,
          hsplitfn, hsegs, hl2, List.append_nil]
      · have hsubid : ∀ seg ∈ l2, seg ∈ splitSlash r.ID.data := by
          intro seg hs
          rw [hconcat]
          exact List.mem_append_left _ hs
        have hgood : ∀ seg ∈ l2,
            seg ≠ [] ∧ seg ≠ ['.'] ∧ seg ≠ ['.', '.'] ∧ '/' ∉ seg := by
          intro seg hs
          have h3 := validRel_seg r.ID hid seg (hsubid seg hs)
          exact ⟨h3.1, h3.2.1, h3.2.2,
            not_slash_mem_splitSlash r.ID.data seg (hsubid seg hs)⟩
        have hdirv : validRel (String.mk (renderSegs l2)) = true :=
          validRel_mk_render l2 hl2 hgood
        rw [habs, hdir, if_neg hl2, goJoin_three b _ _ hb hdirv hfnv, hsplitfn, hsegs,
          splitSlash_renderSegs l2 hl2 (fun seg hs => (hgood seg hs).2.2.2)]
  · have hbc : (r.Typ == LFTypeConnection) = false := beq_eq_false_iff_ne.mpr hconn
    have habs : r.AbsPath b = goJoin [b, r.ID, r.Filename] := by
      simp only [Revision.AbsPath, hbe, hbc, Bool.false_eq_true, if_false]
    have hsegs : pathSegsOf r b =
        splitSlash b.data ++ splitSlash r.ID.data ++ [(r.Filename).data] := by
      simp only [pathSegsOf, hbc, Bool.false_eq_true, if_false]
    rw [habs, goJoin_three b _ _ hb hid hfnv, hsplitfn, hsegs]

theorem pathSegsOf_good (r : Revision) (b : String) (hb : validRel b = true)
    (hid : validRel r.ID = true) (ht : r.Typ ∈ knownLFTypes) :
    ∀ seg ∈ pathSegsOf r b, seg ≠ [] ∧ '/' ∉ seg := by
  intro seg hseg
  have hfn := filename_good r ht hid
  rcases List.mem_append.mp hseg with h | h
  · rcases List.mem_append.mp h with h2 | h2
    · exact ⟨(validRel_seg b hb seg h2).1, not_slash_mem_splitSlash b.data seg h2⟩
    · have hmem : seg ∈ splitSlash r.ID.data := by
        by_cases hbc : (r.Typ == LFTypeConnection) = true
        · rw [if_pos hbc] at h2
          exact (List.dropLast_sublist (splitSlash r.ID.data)).subset h2
        · rw [if_neg hbc] at h2
          exact h2
      exact ⟨(validRel_seg r.ID hid seg hmem).1,
        not_slash_mem_splitSlash r.ID.data seg hmem⟩
  · have hs : seg = (r.Filename).data := by simpa using h
    subst hs
    exact ⟨hfn.1, hfn.2.1⟩

theorem render_inj (l1 l2 : List (List Char)) (h1 : l1 ≠ []) (h2 : l2 ≠ [])
    (g1 : ∀ seg ∈ l1, '/' ∉ seg) (g2 : ∀ seg ∈ l2, '/' ∉ seg)
    (he : renderSegs l1 = renderSegs l2) : l1 = l2 := by
  rw [← splitSlash_renderSegs l1 h1 g1, ← splitSlash_renderSegs l2 h2 g2, he]

theorem slash_mem_renderSegs (x y : List Char) (rest : List (List Char)) :
    '/' ∈ renderSegs (x :: y :: rest) := by
  rw [renderSegs_cons _ _ (by simp)]
  exact List.mem_append_right _ (List.mem_cons_self ..)

theorem absPath_env (r : Revision) (b : String) (h : r.Typ = LFTypeEnvironment) :
    r.AbsPath b = (".env.lfrevision") := by
  have hbe : (r.Typ == LFTypeEnvironment) = true := by
    rw [h]
    decide
  simp [Revision.AbsPath, hbe]

theorem pathSegsOf_shape (r : Revision) (b : String) :
    ∃ x y rest, pathSegsOf r b = x :: y :: rest := by
  rcases hsp : splitSlash b.data with _ | ⟨s, srest⟩
  · exact absurd hsp (splitSlash_ne_nil _)
  · refine ⟨s, ?_⟩
    have : pathSegsOf r b = s :: (srest ++
        ((if r.Typ == LFTypeConnection then (splitSlash r.ID.data).dropLast
          else splitSlash r.ID.data) ++ [(r.Filename).data])) := by
      simp only [pathSegsOf, hsp, List.cons_append, List.append_assoc]
    rcases h2 : srest ++
        ((if r.Typ == LFTypeConnection then (splitSlash r.ID.data).dropLast
          else splitSlash r.ID.data) ++ [(r.Filename).data]) with _ | ⟨y, rest⟩
    · exact absurd h2 (by simp)
    · exact ⟨y, rest, by rw [this, h2]⟩

theorem absPath_env_ne_nonenv (r : Revision) (b : String) (hb : validRel b = true)
    (hid : validRel r.ID = true) (ht : r.Typ ∈ knownLFTypes)
    (henv : r.Typ ≠ LFTypeEnvironment) :
    (".env.lfrevision" : String) ≠ r.AbsPath b := by
  intro he
  rw [absPath_data r b hb hid ht henv] at he
  have hd := congrArg String.data he
  obtain ⟨x, y, rest, hshape⟩ := pathSegsOf_shape r b
  rw [hshape] at hd
  have hmem : '/' ∈ (".env.lfrevision" : String).data := by
    rw [hd]
    exact slash_mem_renderSegs x y rest
  revert hmem
  decide

theorem filename_type_eq (r1 r2 : Revision) (ht1 : r1.Typ ∈ knownLFTypes)
    (ht2 : r2.Typ ∈ knownLFTypes)
    (he : (r1.Filename).data = (r2.Filename).data) : r1.Typ = r2.Typ := by
  have hQ : (".pstep.lfrevision").data = (".pstep").data ++ (".lfrevision").data := by
    decide
  by_cases h1 : r1.Typ = LFTypeProvisioningStep
  · by_cases h2 : r2.Typ = LFTypeProvisioningStep
    · rw [h1, h2]
    · exfalso
      rw [data_filename_step r1 h1,
        data_filename_plain r2 (beq_eq_false_iff_ne.mpr h2)] at he
      have he2 := List.cons_injective he
      rw [hQ, ← List.append_assoc] at he2
      have he3 := (List.append_cancel_right he2).symm
      have hdot : '.' ∈ r2.Typ.data := by
        rw [he3]
        exact List.mem_append_right _ (by decide)
      exact (known_type_chars r2.Typ ht2).2.2 hdot
  · by_cases h2 : r2.Typ = LFTypeProvisioningStep
    · exfalso
      rw [data_filename_step r2 h2,
        data_filename_plain r1 (beq_eq_false_iff_ne.mpr h1)] at he
      have he2 := List.cons_injective he.symm
      rw [hQ, ← List.append_assoc] at he2
      have he3 := (List.append_cancel_right he2).symm
      have hdot : '.' ∈ r1.Typ.data := by
        rw [he3]
        exact List.mem_append_right _ (by decide)
      exact (known_type_chars r1.Typ ht1).2.2 hdot
    · rw [data_filename_plain r1 (beq_eq_false_iff_ne.mpr h1),
        data_filename_plain r2 (beq_eq_false_iff_ne.mpr h2)] at he
      have he2 := List.cons_injective he
      exact String.ext (List.append_cancel_right he2)

theorem goDir_eq_iff_dropLast (id1 id2 : String) (h1 : validRel id1 = true)
    (h2 : validRel id2 = true) :
    goDir id1 = goDir id2 ↔
      (splitSlash id1.data).dropLast = (splitSlash id2.data).dropLast := by
  rcases List.eq_nil_or_concat (splitSlash id1.data) with hnil | ⟨l2, lst1, hc1⟩
  · exact absurd hnil (splitSlash_ne_nil _)
  rcases List.eq_nil_or_concat (splitSlash id2.data) with hnil | ⟨m2, lst2, hc2⟩
  · exact absurd hnil (splitSlash_ne_nil _)
  rw [List.concat_eq_append] at hc1 hc2
  have hd1 : (splitSlash id1.data).dropLast = l2 := by
    rw [hc1]
    simp
  have hd2 : (splitSlash id2.data).dropLast = m2 := by
    rw [hc2]
    simp
  have hsub1 : ∀ seg ∈ l2, seg ∈ splitSlash id1.data := by
    intro seg hs
    rw [hc1]
    exact List.mem_append_left _ hs
  have hsub2 : ∀ seg ∈ m2, seg ∈ splitSlash id2.data := by
    intro seg hs
    rw [hc2]
    exact List.mem_append_left _ hs
  have hg1 : ∀ seg ∈ l2, '/' ∉ seg :=
    fun seg hs => not_slash_mem_splitSlash id1.data seg (hsub1 seg hs)
  have hg2 : ∀ seg ∈ m2, '/' ∉ seg :=
    fun seg hs => not_slash_mem_splitSlash id2.data seg (hsub2 seg hs)
  rw [goDir_decomp id1 l2 lst1 h1 hc1, goDir_decomp id2 m2 lst2 h2 hc2, hd1, hd2]
  constructor
  · intro he
    by_cases ha : l2 = []
    · by_cases hb2 : m2 = []
      · rw [ha, hb2]
      · exfalso
        rw [if_pos ha, if_neg hb2] at he
        have hdata : ('.' :: []) = renderSegs m2 := congrArg String.data he
        have hm2 : m2 = [['.']] := by
          rw [← splitSlash_renderSegs m2 hb2 hg2, ← hdata]
          decide
        have : (['.'] : List Char) ∈ splitSlash id2.data := by
          refine hsub2 _ ?_
          rw [hm2]
          exact List.mem_cons_self ..
        exact (validRel_seg id2 h2 _ this).2.1 rfl
    · by_cases hb2 : m2 = []
      · exfalso
        rw [if_neg ha, if_pos hb2] at he
        have hdata : renderSegs l2 = ('.' :: []) := congrArg String.data he
        have hl2 : l2 = [['.']] := by
          rw [← splitSlash_renderSegs l2 ha hg1, hdata]
          decide
        have : (['.'] : List Char) ∈ splitSlash id1.data := by
          refine hsub1 _ ?_
          rw [hl2]
          exact List.mem_cons_self ..
        exact (validRel_seg id1 h1 _ this).2.1 rfl
      · rw [if_neg ha, if_neg hb2] at he
        exact render_inj l2 m2 ha hb2 hg1 hg2 (congrArg String.data he)
  · intro he
    rw [he]

theorem absPath_eq_forward (r1 r2 : Revision) (b : String) (hb : validRel b = true)
    (hid1 : validRel r1.ID = true) (hid2 : validRel r2.ID = true)
    (ht1 : r1.Typ ∈ knownLFTypes) (ht2 : r2.Typ ∈ knownLFTypes)
    (he : r1.AbsPath b = r2.AbsPath b) :
    (r1.Typ = LFTypeEnvironment ∧ r2.Typ = LFTypeEnvironment) ∨
    (r1.Typ = LFTypeConnection ∧ r2.Typ = LFTypeConnection ∧ goDir r1.ID = goDir r2.ID) ∨
    (r1.Typ = r2.Typ ∧ r1.Typ ≠ LFTypeEnvironment ∧ r1.Typ ≠ LFTypeConnection ∧
      r1.ID = r2.ID) := by
  by_cases h1 : r1.Typ = LFTypeEnvironment
  · by_cases h2 : r2.Typ = LFTypeEnvironment
    · exact Or.inl ⟨h1, h2⟩
    · exfalso
      rw [absPath_env r1 b h1] at he
      exact absPath_env_ne_nonenv r2 b hb hid2 ht2 h2 he
  · by_cases h2 : r2.Typ = LFTypeEnvironment
    · exfalso
      rw [absPath_env r2 b h2] at he
      exact absPath_env_ne_nonenv r1 b hb hid1 ht1 h1 he.symm
    · rw [absPath_data r1 b hb hid1 ht1 h1, absPath_data r2 b hb hid2 ht2 h2] at he
      have hsegs : pathSegsOf r1 b = pathSegsOf r2 b := by
        refine render_inj _ _ (by simp [pathSegsOf]) (by simp [pathSegsOf])
          (fun seg hs => (pathSegsOf_good r1 b hb hid1 ht1 seg hs).2)
          (fun seg hs => (pathSegsOf_good r2 b hb hid2 ht2 seg hs).2)
          (congrArg String.data he)
      have hparts := List.append_inj' hsegs (by simp)
      have hX := List.append_cancel_left hparts.1
      have hf : (r1.Filename).data = (r2.Filename).data := by
        have := hparts.2
        simpa using this
      have htype : r1.Typ = r2.Typ := filename_type_eq r1 r2 ht1 ht2 hf
      by_cases hconn : r1.Typ = LFTypeConnection
      · have hbc1 : (r1.Typ == LFTypeConnection) = true := by
          rw [hconn]
          decide
        have hbc2 : (r2.Typ == LFTypeConnection) = true := by
          rw [← htype, hconn]
          decide
        rw [if_pos hbc1, if_pos hbc2] at hX
        refine Or.inr (Or.inl ⟨hconn, htype ▸ hconn, ?_⟩)
        exact (goDir_eq_iff_dropLast r1.ID r2.ID hid1 hid2).mpr hX
      · have hbc1 : (r1.Typ == LFTypeConnection) = false := beq_eq_false_iff_ne.mpr hconn
        have hbc2 : (r2.Typ == LFTypeConnection) = false :=
          beq_eq_false_iff_ne.mpr (htype ▸ hconn)
        rw [if_neg (by simp [hbc1]), if_neg (by simp [hbc2])] at hX
        refine Or.inr (Or.inr ⟨htype, h1, hconn, ?_⟩)
        refine String.ext ?_
        rw [← renderSegs_splitSlash r1.ID.data, ← renderSegs_splitSlash r2.ID.data, hX]

theorem filename_det (r1 r2 : Revision) (hid : r1.ID = r2.ID) (ht : r1.Typ = r2.Typ) :
    r1.Filename = r2.Filename := by
  simp only [Revision.Filename, hid, ht]

theorem absPath_det (r1 r2 : Revision) (b : String) (hid : r1.ID = r2.ID)
    (ht : r1.Typ = r2.Typ) : r1.AbsPath b = r2.AbsPath b := by
  simp only [Revision.AbsPath, Revision.Filename, hid, ht]

theorem absPath_eq_backward (r1 r2 : Revision) (b : String) (hb : validRel b = true)
    (hid1 : validRel r1.ID = true) (hid2 : validRel r2.ID = true)
    (ht1 : r1.Typ ∈ knownLFTypes) (ht2 : r2.Typ ∈ knownLFTypes)
    (hcase : (r1.Typ = LFTypeEnvironment ∧ r2.Typ = LFTypeEnvironment) ∨
      (r1.Typ = LFTypeConnection ∧ r2.Typ = LFTypeConnection ∧ goDir r1.ID = goDir r2.ID) ∨
      (r1.Typ = r2.Typ ∧ r1.Typ ≠ LFTypeEnvironment ∧ r1.Typ ≠ LFTypeConnection ∧
        r1.ID = r2.ID)) :
    r1.AbsPath b = r2.AbsPath b := by
  rcases hcase with ⟨h1, h2⟩ | ⟨h1, h2, hdir⟩ | ⟨ht, _, _, hid⟩
  · rw [absPath_env r1 b h1, absPath_env r2 b h2]
  · have henv1 : r1.Typ ≠ LFTypeEnvironment := by
      rw [h1]
      decide
    have henv2 : r2.Typ ≠ LFTypeEnvironment := by
      rw [h2]
      decide
    rw [absPath_data r1 b hb hid1 ht1 henv1, absPath_data r2 b hb hid2 ht2 henv2]
    have hX := (goDir_eq_iff_dropLast r1.ID r2.ID hid1 hid2).mp hdir
    have hfn : r1.Filename = r2.Filename := by
      have hp1 : (r1.Typ == LFTypeProvisioningStep) = false := by
        rw [h1]
        decide
      have hp2 : (r2.Typ == LFTypeProvisioningStep) = false := by
        rw [h2]
        decide
      simp only [Revision.Filename, hp1, hp2, Bool.false_eq_true, if_false, h1, h2]
      rw [if_neg (by decide), if_neg (by decide)]
    have hbc1 : (r1.Typ == LFTypeConnection) = true := by
      rw [h1]
      decide
    have hbc2 : (r2.Typ == LFTypeConnection) = true := by
      rw [h2]
      decide
    simp only [pathSegsOf, hbc1, hbc2, if_true, hX, hfn]
  · exact absPath_det r1 r2 b hid ht

/-- C1, amended.  The storage-path mapping of `AbsPath`/`Filename` is
deterministic: a record's path depends only on its `id` and `kind`.  It
is, however, not injective as the claim states; over well-formed base
directories, well-formed identities and the known kinds, two records1
share a path exactly when they are both Environment records (whose path
is one fixed name that ignores the identity), or both Connection records
whose identities share the same parent directory (the Connection
filename encodes only the kind, so siblings collide), or agree in both
kind and identity.  ProvisioningStep records with distinct identities
(in particular distinct step ordinals) never collide. -/
theorem storage_path_uniqueness_amended :
    (∀ (r1 r2 : Revision) (b : String), r1.ID = r2.ID → r1.Typ = r2.Typ →
      r1.AbsPath b = r2.AbsPath b ∧ r1.Filename = r2.Filename) ∧
    (∀ (r1 r2 : Revision) (b : String), validRel b = true →
      validRel r1.ID = true → validRel r2.ID = true →
      r1.Typ ∈ knownLFTypes → r2.Typ ∈ knownLFTypes →
      (r1.AbsPath b = r2.AbsPath b ↔
        (r1.Typ = LFTypeEnvironment ∧ r2.Typ = LFTypeEnvironment) ∨
        (r1.Typ = LFTypeConnection ∧ r2.Typ = LFTypeConnection ∧
          goDir r1.ID = goDir r2.ID) ∨
        (r1.Typ = r2.Typ ∧ r1.Typ ≠ LFTypeEnvironment ∧ r1.Typ ≠ LFTypeConnection ∧
          r1.ID = r2.ID))) := by
  constructor
  · intro r1 r2 b hid ht
    exact ⟨absPath_det r1 r2 b hid ht, filename_det r1 r2 hid ht⟩
  · intro r1 r2 b hb hid1 hid2 ht1 ht2
    exact ⟨absPath_eq_forward r1 r2 b hb hid1 hid2 ht1 ht2,
      absPath_eq_backward r1 r2 b hb hid1 hid2 ht1 ht2⟩

/-- C1, counterexample.  Two Connection records of the same host (same
parent directory, different identities) are mapped to the same on-disk
path, so the claimed injectivity fails on the code. -/
theorem storage_path_uniqueness_counterexample :
    Revision.AbsPath
        { ID := "e/h/c0", Typ := LFTypeConnection, Status := RevStatusUnknown,
          Checksum := 0, Timestamp := "", ExternalID := "", Vars := [] } ("b") =
      Revision.AbsPath
        { ID := "e/h/c1", Typ := LFTypeConnection, Status := RevStatusUnknown,
          Checksum := 0, Timestamp := "", ExternalID := "", Vars := [] } ("b") ∧
    ("e/h/c0" : String) ≠ ("e/h/c1" : String) := by
  constructor
  · decide
  · decide

/-- C1, witness for `storage_path_uniqueness_amended` at concrete
records: equal identity and kind give an equal path, and two Host
records with different identities get different paths. -/
theorem storage_path_uniqueness_amended_witness :
    (Revision.AbsPath
        { ID := "e/h1", Typ := LFTypeHost, Status := RevStatusUnknown,
          Checksum := 0, Timestamp := "", ExternalID := "", Vars := [] } ("b") =
      Revision.AbsPath
        { ID := "e/h1", Typ := LFTypeHost, Status := RevStatusActive,
          Checksum := 7, Timestamp := "t", ExternalID := "x", Vars := [] } ("b")) ∧
    (Revision.AbsPath
        { ID := "e/h1", Typ := LFTypeHost, Status := RevStatusUnknown,
          Checksum := 0, Timestamp := "", ExternalID := "", Vars := [] } ("b") ≠
      Revision.AbsPath
        { ID := "e/h2", Typ := LFTypeHost, Status := RevStatusUnknown,
          Checksum := 0, Timestamp := "", ExternalID := "", Vars := [] } ("b")) := by
  constructor
  · exact (storage_path_uniqueness_amended.1 _ _ ("b") rfl rfl).1
  · intro h
    have hc := (storage_path_uniqueness_amended.2 _ _ ("b") (by decide) (by decide)
      (by decide) (by decide) (by decide)).mp h
    exact absurd hc (by decide)

/-- C9.  Environment root record location: for a record of kind
Environment, `AbsPath` returns the single fixed well-known name
`.env.lfrevision`, the same constant for every `basedir` argument (the
path ignores `basedir` entirely), while every other known kind produces
a path rooted under `basedir`. -/
theorem environment_root_record :
    (∀ (r : Revision) (b : String), r.Typ = LFTypeEnvironment →
      r.AbsPath b = (".env.lfrevision")) ∧
    (∀ (r : Revision) (b : String), r.Typ ∈ knownLFTypes →
      r.Typ ≠ LFTypeEnvironment → validRel b = true → validRel r.ID = true →
      ∃ rest, (r.AbsPath b).data = b.data ++ '/' :: rest) := by
  constructor
  · intro r b h
    exact absPath_env r b h
  · intro r b ht henv hb hid
    rw [absPath_data r b hb hid ht henv]
    refine ⟨renderSegs ((if r.Typ == LFTypeConnection then (splitSlash r.ID.data).dropLast
      else splitSlash r.ID.data) ++ [(r.Filename).data]), ?_⟩
    show renderSegs (pathSegsOf r b) = b.data ++ '/' :: _
    rw [pathSegsOf, List.append_assoc,
      renderSegs_append _ _ (splitSlash_ne_nil _) (by simp), renderSegs_splitSlash]

/-- C9, witness for `environment_root_record` at a concrete Environment
record and a concrete Host record. -/
theorem environment_root_record_witness :
    Revision.AbsPath
      { ID := "ignored/identity", Typ := LFTypeEnvironment, Status := RevStatusUnknown,
        Checksum := 0, Timestamp := "", ExternalID := "", Vars := [] }
      ("some/base/dir") = (".env.lfrevision") ∧
    ∃ rest, (Revision.AbsPath
      { ID := "e/h1", Typ := LFTypeHost, Status := RevStatusUnknown,
        Checksum := 0, Timestamp := "", ExternalID := "", Vars := [] }
      ("some/base/dir")).data = ("some/base/dir" : String).data ++ '/' :: rest :=
  ⟨environment_root_record.1 _ ("some/base/dir") rfl,
   environment_root_record.2 _ ("some/base/dir") (by decide) (by decide) (by decide)
     (by decide)⟩

/-! ## Claim C7: the fingerprint of `remote_state_config.go`

`Hash` is `xxhash.Sum64String` of
`fmt.Sprintf("id=%v type=%v config=%v", r.ID, r.Type, r.Config)`.
The xxHash64 algorithm (seed 0) is embedded below over byte lists, with
`uint64` arithmetic as `Nat` reduced modulo `2 ^ 64`; Go's `%v` verb for
a `map[string]string` prints `map[k1:v1 k2:v2]` with the keys in sorted
(byte-wise, equivalently code-point-wise) order, which is what makes the
fingerprint insensitive to map iteration and insertion order. -/

def xxPrime1 : Nat := 11400714785074694791

def xxPrime2 : Nat := 14029467366897019727

def xxPrime3 : Nat := 1609587929392839161

def xxPrime4 : Nat := 9650029242287828579

def xxPrime5 : Nat := 2870177450012600261

/-- Reduce modulo `2 ^ 64` (Go `uint64` wrap-around). -/
def m64 (x : Nat) : Nat := x % 18446744073709551616

/-- 64-bit rotate left by `k` of a value already below `2 ^ 64`. -/
def rotl64 (k x : Nat) : Nat := m64 (x * 2 ^ k) + x / 2 ^ (64 - k)

/-- The `round(acc, input)` step of xxHash64. -/
def xxRound (acc input : Nat) : Nat :=
  m64 (rotl64 31 (m64 (acc + m64 (input * xxPrime2))) * xxPrime1)

/-- The `mergeRound(h, v)` step of xxHash64. -/
def xxMergeRound (h v : Nat) : Nat :=
  m64 (m64 ((h ^^^ xxRound 0 v)) * xxPrime1 + xxPrime4)

/-- Little-endian value of a byte list. -/
def leNat : List Nat → Nat
  | [] => 0
  | b :: rest => b + 256 * leNat rest

/-- The 32-byte block loop of xxHash64; returns the four lanes and the
remaining input.  The extra `fuel` argument (always called with at least
the input length) only makes the loop structurally recursive; it never
runs out before the loop's own exit condition. -/
def xxBlocks : Nat → Nat → Nat → Nat → Nat → List Nat → Nat × Nat × Nat × Nat × List Nat
  | 0, v1, v2, v3, v4, input => (v1, v2, v3, v4, input)
  | fuel + 1, v1, v2, v3, v4, input =>
    if 32 ≤ input.length then
      xxBlocks fuel
        (xxRound v1 (leNat (input.take 8)))
        (xxRound v2 (leNat ((input.drop 8).take 8)))
        (xxRound v3 (leNat ((input.drop 16).take 8)))
        (xxRound v4 (leNat ((input.drop 24).take 8)))
        (input.drop 32)
    else
      (v1, v2, v3, v4, input)

/-- The 8-byte tail loop of xxHash64 (fuel-structured like `xxBlocks`). -/
def xxTail8 : Nat → Nat → List Nat → Nat × List Nat
  | 0, h, input => (h, input)
  | fuel + 1, h, input =>
    if 8 ≤ input.length then
      xxTail8 fuel (m64 (rotl64 27 (h ^^^ xxRound 0 (leNat (input.take 8))) * xxPrime1 +
        xxPrime4)) (input.drop 8)
    else
      (h, input)


/-- The final per-byte loop of xxHash64. -/
def xxTail1 (h : Nat) : List Nat → Nat
  | [] => h
  | b :: rest => xxTail1 (m64 (rotl64 11 (h ^^^ m64 (b * xxPrime5)) * xxPrime1)) rest

/-- The avalanche finalizer of xxHash64. -/
def xxAvalanche (h0 : Nat) : Nat :=
  let h1 := h0 ^^^ (h0 / 2 ^ 33)
  let h2 := m64 (h1 * xxPrime2)
  let h3 := h2 ^^^ (h2 / 2 ^ 29)
  let h4 := m64 (h3 * xxPrime3)
  h4 ^^^ (h4 / 2 ^ 32)

/-- xxHash64 with seed 0 of a byte list (`github.com/cespare/xxhash`
`Sum64`). -/
def xxh64 (input : List Nat) : Nat :=
  let n := input.length
  let hrem :=
    if 32 ≤ n then
      let r := xxBlocks n (m64 (xxPrime1 + xxPrime2)) xxPrime2 0
        (m64 (18446744073709551616 - xxPrime1)) input
      let h0 := m64 (rotl64 1 r.1 + rotl64 7 r.2.1 + rotl64 12 r.2.2.1 +
        rotl64 18 r.2.2.2.1)
      (xxMergeRound (xxMergeRound (xxMergeRound (xxMergeRound h0 r.1) r.2.1)
        r.2.2.1) r.2.2.2.1, r.2.2.2.2)
    else
      (xxPrime5, input)
  let h1 := m64 (hrem.1 + n)
  let t8 := xxTail8 hrem.2.length h1 hrem.2
  let h2 :=
    if 4 ≤ t8.2.length then
      (m64 (rotl64 23 (t8.1 ^^^ m64 (leNat (t8.2.take 4) * xxPrime1)) * xxPrime2 +
        xxPrime3), t8.2.drop 4)
    else
      t8
  xxAvalanche (xxTail1 h2.1 h2.2)

/-- UTF-8 bytes of one character. -/
def charUtf8 (c : Char) : List Nat :=
  let n := c.toNat
  if n < 128 then [n]
  else if n < 2048 then [192 + n / 64, 128 + n % 64]
  else if n < 65536 then [224 + n / 4096, 128 + (n / 64) % 64, 128 + n % 64]
  else [240 + n / 262144, 128 + (n / 4096) % 64, 128 + (n / 64) % 64, 128 + n % 64]

/-- UTF-8 bytes of a string (what Go hashes for a `string`). -/
def strBytes (s : String) : List Nat :=
  s.data.foldr (fun c acc => charUtf8 c ++ acc) []

/-- Go `xxhash.Sum64String` with seed 0. -/
def xxhashSum64String (s : String) : Nat := xxh64 (strBytes s)

/-- Sanity check of the xxHash64 embedding against the published test
vector for the empty input. -/
theorem xxh64_empty_vector : xxh64 [] = 17241709254077376921 := by decide

/-- Sanity check of the xxHash64 embedding against the published test
vector for `"a"` (one-byte tail path). -/
theorem xxh64_a_vector : xxhashSum64String ("a") = 15154266338359012955 := by decide

/-- Sanity check of the xxHash64 embedding against the published test
vector for a 39-byte input (exercises the 32-byte block loop). -/
theorem xxh64_long_vector :
    xxhashSum64String ("Nobody inspects the spammish repetition") =
      18144624926692707313 := by decide

/-- The key order Go's `fmt` package uses when printing a
`map[string]string` with `%v`: ascending keys (byte-wise, which on valid
UTF-8 equals code-point order).  Values are used as a tie-break, which
never fires on a Go map since its keys are distinct. -/
def cfgLe : String × String → String × String → Prop :=
  fun p q => p.1 < q.1 ∨ (p.1 = q.1 ∧ p.2 ≤ q.2)

instance : DecidableRel cfgLe :=
  fun p q => inferInstanceAs (Decidable (p.1 < q.1 ∨ (p.1 = q.1 ∧ p.2 ≤ q.2)))

instance : IsTotal (String × String) cfgLe where
  total p q := by
    rcases lt_trichotomy p.1 q.1 with h | h | h
    · exact Or.inl (Or.inl h)
    · rcases le_total p.2 q.2 with h2 | h2
      · exact Or.inl (Or.inr ⟨h, h2⟩)
      · exact Or.inr (Or.inr ⟨h.symm, h2⟩)
    · exact Or.inr (Or.inl h)

instance : IsTrans (String × String) cfgLe where
  trans p q u hpq hqu := by
    rcases hpq with h1 | ⟨h1, h1b⟩
    · rcases hqu with h2 | ⟨h2, _⟩
      · exact Or.inl (lt_trans h1 h2)
      · exact Or.inl (h2 ▸ h1)
    · rcases hqu with h2 | ⟨h2, h2b⟩
      · exact Or.inl (h1 ▸ h2)
      · exact Or.inr ⟨h1.trans h2, le_trans h1b h2b⟩

instance : IsAntisymm (String × String) cfgLe where
  antisymm p q hpq hqp := by
    rcases p with ⟨p1, p2⟩
    rcases q with ⟨q1, q2⟩
    rcases hpq with h1 | ⟨h1, h1b⟩
    · rcases hqp with h2 | ⟨h2, _⟩
      · exact absurd h2 (lt_asymm h1)
      · exact absurd h2 (ne_of_gt h1)
    · rcases hqp with h2 | ⟨h2, h2b⟩
      · exact absurd h1 (ne_of_gt h2)
      · simp only [Prod.mk.injEq]
        exact ⟨h1, le_antisymm h1b h2b⟩

/-- The sorted entry list Go's `fmtsort` feeds the `%v` printer. -/
def goSortedConfig (m : List (String × String)) : List (String × String) :=
  List.insertionSort cfgLe m

/-- Go `fmt` rendering of a `map[string]string` under `%v`:
`map[k1:v1 k2:v2]`, keys sorted. -/
def goMapVerb (m : List (String × String)) : String :=
  ("map[") ++
    String.intercalate (" ") ((goSortedConfig m).map (fun p => p.1 ++ (":") ++ p.2)) ++
    ("]")

/-- Go `type Remote struct` from `remote_state_config.go` (field `Type`
is spelled `Typ`, as in `Revision`). -/
structure Remote where
  ID : String
  Typ : String
  Config : List (String × String)
deriving Repr, DecidableEq

/-- Go `func (r *Remote) Hash() uint64` — xxHash64 of
`fmt.Sprintf("id=%v type=%v config=%v", r.ID, r.Type, r.Config)`. -/
def Remote.Hash (r : Remote) : Nat :=
  xxhashSum64String
    (("id=") ++ r.ID ++ (" type=") ++ r.Typ ++ (" config=") ++ goMapVerb r.Config)

theorem xxAvalanche_lt (h0 : Nat) : xxAvalanche h0 < 2 ^ 64 := by
  have hm : m64 ((h0 ^^^ h0 / 2 ^ 33) * xxPrime2) ^^^
        m64 ((h0 ^^^ h0 / 2 ^ 33) * xxPrime2) / 2 ^ 29 < 2 ^ 64 := by
    refine Nat.xor_lt_two_pow ?_ ?_
    · exact Nat.mod_lt _ (by norm_num)
    · exact lt_of_le_of_lt (Nat.div_le_self ..) (Nat.mod_lt _ (by norm_num))
  refine Nat.xor_lt_two_pow ?_ ?_
  · exact Nat.mod_lt _ (by norm_num)
  · exact lt_of_le_of_lt (Nat.div_le_self ..) (Nat.mod_lt _ (by norm_num))

theorem xxh64_lt (input : List Nat) : xxh64 input < 2 ^ 64 :=
  xxAvalanche_lt _

theorem goSortedConfig_perm_eq (m1 m2 : List (String × String))
    (hperm : m1.Perm m2) : goSortedConfig m1 = goSortedConfig m2 := by
  have hp : (goSortedConfig m1).Perm (goSortedConfig m2) :=
    ((List.perm_insertionSort cfgLe m1).trans hperm).trans
      (List.perm_insertionSort cfgLe m2).symm
  have hs1 : List.Sorted cfgLe (goSortedConfig m1) := List.sorted_insertionSort cfgLe m1
  have hs2 : List.Sorted cfgLe (goSortedConfig m2) := List.sorted_insertionSort cfgLe m2
  exact List.eq_of_perm_of_sorted hp hs1 hs2

/-- C7.  Fingerprint determinism and map-order insensitivity: `Hash` is
a pure function of `ID`, `Type` and the `Config` key/value pairs, and
two `Remote` values with equal `ID`, equal `Type` and `Config` maps
holding exactly the same entries (in any insertion/iteration order,
modelled as a permutation of the entry list) hash to the same value;
every hash fits in 64 bits. -/
theorem remote_hash_deterministic_and_order_insensitive :
    (∀ r : Remote, r.Hash < 2 ^ 64) ∧
    (∀ r1 r2 : Remote, r1.ID = r2.ID → r1.Typ = r2.Typ →
      r1.Config.Perm r2.Config → r1.Hash = r2.Hash) := by
  constructor
  · intro r
    exact xxh64_lt _
  · intro r1 r2 hid ht hperm
    unfold Remote.Hash
    rw [hid, ht, goMapVerb, goMapVerb, goSortedConfig_perm_eq r1.Config r2.Config hperm]

/-- C7, witness for
`remote_hash_deterministic_and_order_insensitive` at a concrete pair of
`Remote` values whose configuration entries are listed in different
orders. -/
theorem remote_hash_order_insensitive_witness :
    Remote.Hash
        { ID := "tf", Typ := "s3",
          Config := [("bucket", "b"), ("region", "us")] } =
      Remote.Hash
        { ID := "tf", Typ := "s3",
          Config := [("region", "us"), ("bucket", "b")] } ∧
    Remote.Hash
        { ID := "tf", Typ := "s3",
          Config := [("bucket", "b"), ("region", "us")] } < 2 ^ 64 :=
  ⟨remote_hash_deterministic_and_order_insensitive.2 _ _ rfl rfl (by decide),
   remote_hash_deterministic_and_order_insensitive.1 _⟩

/-! ## Claim C8: `ParseRevisionFile`

`ParseRevisionFile` reads a file and `json.Unmarshal`s it into a
`Revision`.  The filesystem is a parameter `fs : String → Option String`
(`none` models an unreadable path).  `encoding/json` is embedded as a
real JSON parser plus the struct-decoding rules Go applies to
`Revision`: top-level must be an object (or `null`, which leaves the
zero value), unknown fields are ignored, later duplicate fields win,
`null` field values are skipped, a wrong-typed field value is an error,
and `checksum` must be an integer representable in `uint64`.  Model
notes: field names are matched exactly (Go additionally falls back to a
case-insensitive match), the RFC3339 validation of `timestamp` is not
re-implemented (any JSON string is accepted), and numbers with a
fraction or exponent are rejected at the syntax level (for the
`checksum` field Go likewise errors on them). -/

def isWs (c : Char) : Bool := c == ' ' || c == '\t' || c == '\n' || c == '\r'

def skipWs (cs : List Char) : List Char := cs.dropWhile isWs

/-- A parsed JSON value. -/
inductive JVal where
  | jnull
  | jbool (b : Bool)
  | jnum (n : Int)
  | jstr (s : String)
  | jarr (elems : List JVal)
  | jobj (fields : List (String × JVal))
deriving Repr

def hexVal (c : Char) : Option Nat :=
  if '0' ≤ c ∧ c ≤ '9' then some (c.toNat - 48)
  else if 'a' ≤ c ∧ c ≤ 'f' then some (c.toNat - 87)
  else if 'A' ≤ c ∧ c ≤ 'F' then some (c.toNat - 55)
  else none

def escSimple (c : Char) : Option Char :=
  if c = '"' then some '"'
  else if c = '\\' then some '\\'
  else if c = '/' then some '/'
  else if c = 'b' then some (Char.ofNat 8)
  else if c = 'f' then some (Char.ofNat 12)
  else if c = 'n' then some '\n'
  else if c = 'r' then some '\r'
  else if c = 't' then some '\t'
  else none

/-- Parse the remainder of a JSON string literal (the opening quote
already consumed); returns the decoded characters and the rest of the
input. -/
def parseJStrChars : List Char → Option (List Char × List Char)
  | [] => none
  | c :: cs =>
    if c = '"' then some ([], cs)
    else if c = '\\' then
      match cs with
      | [] => none
      | e :: cs2 =>
        if e = 'u' then
          match cs2 with
          | a :: b2 :: c2 :: d :: cs3 =>
            match hexVal a, hexVal b2, hexVal c2, hexVal d with
            | some ha, some hb, some hc2, some hd =>
              (parseJStrChars cs3).map
                (fun p => (Char.ofNat (ha * 4096 + hb * 256 + hc2 * 16 + hd) :: p.1, p.2))
            | _, _, _, _ => none
          | _ => none
        else
          match escSimple e with
          | some ch => (parseJStrChars cs2).map (fun p => (ch :: p.1, p.2))
          | none => none
    else (parseJStrChars cs).map (fun p => (c :: p.1, p.2))

def digitsVal (ds : List Nat) : Nat := ds.foldl (fun acc d => acc * 10 + d) 0

/-- Parse a JSON number (integers only; a fraction or exponent is
rejected, see the section comment). -/
def parseJNum (cs : List Char) : Option (Int × List Char) :=
  let neg := match cs with
    | '-' :: _ => true
    | _ => false
  let cs1 := match cs with
    | '-' :: r => r
    | _ => cs
  let ds := cs1.takeWhile (fun c => c.isDigit)
  let rest := cs1.dropWhile (fun c => c.isDigit)
  match ds with
  | [] => none
  | _ :: _ =>
    match rest with
    | '.' :: _ => none
    | 'e' :: _ => none
    | 'E' :: _ => none
    | _ =>
      let n : Nat := digitsVal (ds.map (fun c => c.toNat - 48))
      some (if neg then -(n : Int) else (n : Int), rest)

def expectChars : List Char → List Char → Option (List Char)
  | [], cs => some cs
  | p :: ps, c :: cs => if p = c then expectChars ps cs else none
  | _ :: _, [] => none

/-- Which production the JSON parser is working on: a value, the items
of a non-empty array (result wrapped as `jarr`), or the members of a
non-empty object (result wrapped as `jobj`). -/
inductive PMode where
  | val
  | arr
  | obj

/-- The recursive JSON parser.  `fuel` bounds the recursion depth (one
unit per parsed item); callers supply more fuel than the input length,
so it never runs out on any input. -/
def parseJCore : Nat → PMode → List Char → Option (JVal × List Char)
  | 0, _, _ => none
  | fuel + 1, PMode.val, cs =>
    match skipWs cs with
    | [] => none
    | c :: rest =>
      if c = 'n' then (expectChars ['u', 'l', 'l'] rest).map (fun r => (JVal.jnull, r))
      else if c = 't' then
        (expectChars ['r', 'u', 'e'] rest).map (fun r => (JVal.jbool true, r))
      else if c = 'f' then
        (expectChars ['a', 'l', 's', 'e'] rest).map (fun r => (JVal.jbool false, r))
      else if c = '"' then
        (parseJStrChars rest).map (fun p => (JVal.jstr (String.mk p.1), p.2))
      else if c = '[' then
        match skipWs rest with
        | ']' :: r2 => some (JVal.jarr [], r2)
        | r2 => parseJCore fuel PMode.arr r2
      else if c = '{' then
        match skipWs rest with
        | '}' :: r2 => some (JVal.jobj [], r2)
        | r2 => parseJCore fuel PMode.obj r2
      else (parseJNum (c :: rest)).map (fun p => (JVal.jnum p.1, p.2))
  | fuel + 1, PMode.arr, cs =>
    match parseJCore fuel PMode.val cs with
    | none => none
    | some (v, rest) =>
      match skipWs rest with
      | ',' :: r2 =>
        match parseJCore fuel PMode.arr r2 with
        | some (JVal.jarr vs, r3) => some (JVal.jarr (v :: vs), r3)
        | _ => none
      | ']' :: r2 => some (JVal.jarr [v], r2)
      | _ => none
  | fuel + 1, PMode.obj, cs =>
    match skipWs cs with
    | '"' :: rest =>
      match parseJStrChars rest with
      | none => none
      | some (key, r2) =>
        match skipWs r2 with
        | ':' :: r3 =>
          match parseJCore fuel PMode.val r3 with
          | none => none
          | some (v, r4) =>
            match skipWs r4 with
            | ',' :: r5 =>
              match parseJCore fuel PMode.obj r5 with
              | some (JVal.jobj fs2, r6) =>
                some (JVal.jobj ((String.mk key, v) :: fs2), r6)
              | _ => none
            | '}' :: r5 => some (JVal.jobj [(String.mk key, v)], r5)
            | _ => none
        | _ => none
    | _ => none

/-- Parse one JSON value. -/
def parseJVal (fuel : Nat) (cs : List Char) : Option (JVal × List Char) :=
  parseJCore fuel PMode.val cs

/-- The zero value of `Revision` that `var rev Revision` declares. -/
def zeroRevision : Revision :=
  { ID := "", Typ := "", Status := "", Checksum := 0, Timestamp := "",
    ExternalID := "", Vars := [] }

/-- Decode a JSON object into `map[string]string` (all values must be
strings). -/
def varsOf : List (String × JVal) → Option (List (String × String))
  | [] => some []
  | (k, JVal.jstr v) :: rest => (varsOf rest).map (fun l => (k, v) :: l)
  | _ => none

/-- Apply one decoded JSON object member to the record under Go's
struct-decoding rules for `Revision`. -/
def setRevField (r : Revision) (name : String) (v : JVal) : Option Revision :=
  if name = "id" then
    match v with
    | JVal.jstr s => some { r with ID := s }
    | JVal.jnull => some r
    | _ => none
  else if name = "type" then
    match v with
    | JVal.jstr s => some { r with Typ := s }
    | JVal.jnull => some r
    | _ => none
  else if name = "status" then
    match v with
    | JVal.jstr s => some { r with Status := s }
    | JVal.jnull => some r
    | _ => none
  else if name = "checksum" then
    match v with
    | JVal.jnum n =>
      if 0 ≤ n ∧ n < 18446744073709551616 then some { r with Checksum := n.toNat }
      else none
    | JVal.jnull => some r
    | _ => none
  else if name = "timestamp" then
    match v with
    | JVal.jstr s => some { r with Timestamp := s }
    | JVal.jnull => some r
    | _ => none
  else if name = "external_id" then
    match v with
    | JVal.jstr s => some { r with ExternalID := s }
    | JVal.jnull => some r
    | _ => none
  else if name = "vars" then
    match v with
    | JVal.jobj fields => (varsOf fields).map (fun l => { r with Vars := l })
    | JVal.jnull => some r
    | _ => none
  else some r

def applyRevFields : Revision → List (String × JVal) → Option Revision
  | r, [] => some r
  | r, (k, v) :: rest =>
    match setRevField r k v with
    | none => none
    | some r2 => applyRevFields r2 rest

/-- Go `json.Unmarshal(data, &rev)` for `var rev Revision`; `none` is an
error. -/
def jsonUnmarshalRevision (s : String) : Option Revision :=
  match parseJVal (s.data.length + 1) s.data with
  | none => none
  | some (v, rest) =>
    if skipWs rest = [] then
      match v with
      | JVal.jobj fields => applyRevFields zeroRevision fields
      | JVal.jnull => some zeroRevision
      | _ => none
    else none

/-- Go `func ParseRevisionFile(fpath string) (*Revision, error)` from
`revision.go`, over an explicit filesystem.  The pair mirrors Go's
`(*Revision, error)`: the first component is the returned pointer, the
second the returned error. -/
def ParseRevisionFile (fs : String → Option String) (fpath : String) :
    Option Revision × Option String :=
  match fs fpath with
  | none => (none, some ("read error"))
  | some data =>
    match jsonUnmarshalRevision data with
    | none => (none, some ("unmarshal error"))
    | some rev => (some rev, none)

/-- C8.  Load error behaviour: for every filesystem content and path,
`ParseRevisionFile` returns a record exactly when it returns no error —
an unreadable file or malformed JSON yields an error with no record,
never a crash (the embedding is a total function). -/
theorem parseRevisionFile_ok_iff_no_error (fs : String → Option String) (fpath : String) :
    ((ParseRevisionFile fs fpath).1.isSome = true ↔
      (ParseRevisionFile fs fpath).2 = none) := by
  unfold ParseRevisionFile
  rcases hf : fs fpath with _ | data
  · simp
  · rcases hj : jsonUnmarshalRevision data with _ | rev <;> simp [hj]

/-- Sanity check: a well-formed revision file decodes to the expected
record (braces assembled from characters). -/
def sampleRevJson : String :=
  String.mk ('{' ::
    ("\"id\":\"e/h1\",\"type\":\"host\",\"checksum\":12,\"vars\":").data ++
    '{' :: ("\"a\":\"b\"").data ++ '}' :: ['}'])

theorem jsonUnmarshalRevision_sample :
    jsonUnmarshalRevision sampleRevJson =
      some { ID := "e/h1", Typ := "host", Status := "", Checksum := 12,
             Timestamp := "", ExternalID := "", Vars := [("a", "b")] } := by
  decide

theorem jsonUnmarshalRevision_malformed :
    jsonUnmarshalRevision ("not json at all") = none := by decide

/-! ## Claim C10: `Formatter.FormatChild` (core/formatter/formatter.go)

```go
func (this Formatter) FormatChild(child string) string {
    tmpData := strings.Split(child, "\n")
    for k, v := range child {
        tmpData[k] = fmt.Sprintf(" ┃ %s", v)
    }
    return strings.Join(tmpData, "\n")
}
```

The loop ranges over the *string* `child` (yielding byte offsets and
runes), not over the line slice `tmpData`, so `tmpData[k]` is an
out-of-bounds write (a Go runtime panic) as soon as the byte length of
the input exceeds its line count.  The embedding models the panic as
`Option.none`. -/

/-- Go `strings.Split(child, "\n")` (same construction as `splitSlash`,
with the newline separator). -/
def splitNewline : List Char → List (List Char)
  | [] => [[]]
  | c :: cs =>
    if c = '\n' then [] :: splitNewline cs
    else
      match splitNewline cs with
      | [] => [[c]]
      | s :: rest => (c :: s) :: rest

/-- Go `for k, v := range s` on a string: pairs of byte offset and
rune. -/
def goRangeString : Nat → List Char → List (Nat × Char)
  | _, [] => []
  | i, c :: cs => (i, c) :: goRangeString (i + c.utf8Size) cs

/-- Go `fmt.Sprintf(" ┃ %s", v)` where `v` is a rune: Go formats a
non-Stringer `int32` under `%s` as `%!s(int32=N)`. -/
def goSprintRuneLine (v : Char) : String :=
  (" ┃ %!s(int32=") ++ toString v.toNat ++ (")")

/-- The loop body of `FormatChild`: each iteration writes
`tmpData[k]`; an index at or beyond the slice length is a runtime
panic, modelled as `none`. -/
def formatChildLoop : List String → List (Nat × Char) → Option (List String)
  | tmp, [] => some tmp
  | tmp, (k, v) :: rest =>
    if k < tmp.length then formatChildLoop (tmp.set k (goSprintRuneLine v)) rest
    else none

/-- Go `func (this Formatter) FormatChild(child string) string`; `none`
models the index-out-of-range panic. -/
def FormatChild (child : String) : Option String :=
  let tmpData := (splitNewline child.data).map String.mk
  (formatChildLoop tmpData (goRangeString 0 child.data)).map
    (fun l => String.intercalate ("\n") l)

/-- C10.  The formatter-totality claim is contradicted by the code: on
the two-line input `"ab\ncd"` (5 bytes, 2 lines) the loop indexes the
2-element line slice with the byte offsets 0..4 and performs an
out-of-bounds write at offset 2 — a runtime panic, `none` in the
embedding — even though the function's own documentation promises a
prefixed copy of the input.  A single-character line such as `"a"` still
succeeds, which shows the loop bound, not the split, is at fault. -/
theorem formatChild_out_of_bounds :
    FormatChild ("ab\ncd") = none ∧
    (splitNewline ("ab\ncd" : String).data).length = 2 ∧
    FormatChild ("a") = some (" ┃ %!s(int32=97)") := by
  refine ⟨by decide, by decide, by decide⟩

/-! ## Claim C2: build idempotence

Modelled from the spec: the Build Orchestrator and Classifier are not
among the provided sources (only the Revision record and its operations
are), so the per-node classify/apply/commit pass is modelled from the
spec's component design: the classifier's decision table (section 4.3,
with the taint sentinel recognized by status and value so it never
yields NONE), and the orchestrator's commit rule (section 4.4: on a
successful apply, `TouchWithID` for CREATE and `Touch` otherwise, the
checksum refreshed to the live fingerprint, and the record persisted;
a NONE node's record is not rewritten at all).  All collaborator calls
succeed (the claim speaks of a pass following a successful pass). -/

/-- Modelled from the spec: one topology node as the classifier sees it
— identity, kind, live fingerprint, and the human-declared forced
rebuild flag. -/
structure BuildNode where
  id : String
  typ : LFType
  fingerprint : Nat
  forceRebuild : Bool
deriving Repr, DecidableEq

def nodeKey (n : BuildNode) : String × LFType := (n.id, n.typ)

/-- The Revision Store as a key-to-record map (newest entry wins). -/
def Store := List ((String × LFType) × Revision)

def storeGet (s : Store) (k : String × LFType) : Option Revision :=
  (List.find? (fun e => e.1 == k) s).map (fun e => e.2)

def storePut (s : Store) (k : String × LFType) (r : Revision) : Store :=
  (k, r) :: s

/-- Modelled from the spec: the classifier's action verbs (the source's
`RevMod` constants plus the spec's NONE). -/
inductive BuildAction where
  | CREATE
  | TOUCH
  | DELETE
  | REBUILD
  | NONE
deriving Repr, DecidableEq

/-- Modelled from the spec: the decision table of section 4.3.  An
absent record forces CREATE; a FAILED record retries; a tainted record
(STALE status carrying the sentinel checksum) can never be NONE; a
checksum match is NONE; a mismatch is TOUCH, with REBUILD winning
whenever the node is flagged. -/
def classify (n : BuildNode) (stored : Option Revision) : BuildAction :=
  match stored with
  | none => BuildAction.CREATE
  | some rv =>
    if rv.Status == RevStatusFailed then
      if n.forceRebuild then BuildAction.REBUILD else BuildAction.TOUCH
    else if rv.Status == RevStatusStale && rv.Checksum == 666 then
      if n.forceRebuild then BuildAction.REBUILD else BuildAction.TOUCH
    else if rv.Checksum == n.fingerprint then BuildAction.NONE
    else if n.forceRebuild then BuildAction.REBUILD else BuildAction.TOUCH

/-- Modelled from the spec: the record committed after a successful
apply — `TouchWithID` with the collaborator's external id on first
creation, `Touch` on an update, and a fresh checksum either way. -/
def applyNode (n : BuildNode) (prev : Option Revision) (ext : String) (now : LFTime) :
    Revision :=
  match prev with
  | none =>
    Revision.TouchWithID { defaultRevision n.id n.typ with Checksum := n.fingerprint } ext now
  | some r0 => Revision.Touch { r0 with Checksum := n.fingerprint } now

/-- The running state of one build pass: the store, the keys written,
and the classification of every node processed so far. -/
structure PassResult where
  store : Store
  writes : List (String × LFType)
  classified : List (BuildNode × BuildAction)

/-- One classify/apply/commit step of the pass. -/
def buildStep (ext : BuildNode → String) (now : LFTime) (acc : PassResult)
    (n : BuildNode) : PassResult :=
  let stored := storeGet acc.store (nodeKey n)
  let act := classify n stored
  match act with
  | BuildAction.NONE => { acc with classified := acc.classified ++ [(n, act)] }
  | _ =>
    { store := storePut acc.store (nodeKey n) (applyNode n stored (ext n) now),
      writes := acc.writes ++ [nodeKey n],
      classified := acc.classified ++ [(n, act)] }

/-- Modelled from the spec: one full build pass over a topology in
dependency order, every collaborator call succeeding. -/
def buildPass (topo : List BuildNode) (s0 : Store) (ext : BuildNode → String)
    (now : LFTime) : PassResult :=
  topo.foldl (buildStep ext now) { store := s0, writes := [], classified := [] }

theorem storeGet_put_self (s : Store) (k : String × LFType) (r : Revision) :
    storeGet (storePut s k r) k = some r := by
  simp [storeGet, storePut, List.find?]

theorem storeGet_put_ne (s : Store) (k k2 : String × LFType) (r : Revision)
    (h : k2 ≠ k) : storeGet (storePut s k r) k2 = storeGet s k2 := by
  have hb : ((k, r).1 == k2) = false := by
    refine beq_eq_false_iff_ne.mpr ?_
    simpa using fun he => h he.symm
  simp [storeGet, storePut, List.find?, hb]

theorem classify_applyNode_none (n : BuildNode) (prev : Option Revision)
    (ext : String) (now : LFTime) :
    classify n (some (applyNode n prev ext now)) = BuildAction.NONE := by
  have hs : (applyNode n prev ext now).Status = RevStatusActive := by
    rcases prev with _ | r0 <;> rfl
  have hc : (applyNode n prev ext now).Checksum = n.fingerprint := by
    rcases prev with _ | r0 <;> rfl
  simp [classify, hs, hc, RevStatusActive, RevStatusFailed, RevStatusStale]

theorem buildStep_store_ne (ext : BuildNode → String) (now : LFTime)
    (acc : PassResult) (n : BuildNode) (k : String × LFType) (h : k ≠ nodeKey n) :
    storeGet (buildStep ext now acc n).store k = storeGet acc.store k := by
  rcases hc : classify n (storeGet acc.store (nodeKey n)) with _ | _ | _ | _ | _ <;>
    simp only [buildStep, hc]
  · exact storeGet_put_ne _ _ _ _ h
  · exact storeGet_put_ne _ _ _ _ h
  · exact storeGet_put_ne _ _ _ _ h
  · exact storeGet_put_ne _ _ _ _ h

theorem foldl_buildStep_store_ne (ext : BuildNode → String) (now : LFTime)
    (l : List BuildNode) :
    ∀ (acc : PassResult) (k : String × LFType), (∀ n ∈ l, k ≠ nodeKey n) →
      storeGet (l.foldl (buildStep ext now) acc).store k = storeGet acc.store k := by
  induction l with
  | nil => intro acc k _; rfl
  | cons m rest ih =>
    intro acc k hk
    rw [List.foldl_cons, ih _ k (fun n hn => hk n (List.mem_cons_of_mem _ hn)),
      buildStep_store_ne ext now acc m k (hk m (List.mem_cons_self ..))]

theorem buildStep_establishes (ext : BuildNode → String) (now : LFTime)
    (acc : PassResult) (n : BuildNode) :
    ∃ r, storeGet (buildStep ext now acc n).store (nodeKey n) = some r ∧
      classify n (some r) = BuildAction.NONE := by
  rcases hc : classify n (storeGet acc.store (nodeKey n)) with _ | _ | _ | _ | _ <;>
    simp only [buildStep, hc]
  · exact ⟨_, storeGet_put_self .., classify_applyNode_none n _ (ext n) now⟩
  · exact ⟨_, storeGet_put_self .., classify_applyNode_none n _ (ext n) now⟩
  · exact ⟨_, storeGet_put_self .., classify_applyNode_none n _ (ext n) now⟩
  · exact ⟨_, storeGet_put_self .., classify_applyNode_none n _ (ext n) now⟩
  · rcases hs : storeGet acc.store (nodeKey n) with _ | r
    · rw [hs] at hc
      exact absurd hc (by simp [classify])
    · rw [hs] at hc
      exact ⟨r, rfl, hc⟩

theorem buildStep_none_eq (ext : BuildNode → String) (now : LFTime) (acc : PassResult)
    (n : BuildNode) (h : classify n (storeGet acc.store (nodeKey n)) = BuildAction.NONE) :
    buildStep ext now acc n =
      { store := acc.store, writes := acc.writes,
        classified := acc.classified ++ [(n, BuildAction.NONE)] } := by
  simp only [buildStep, h]

theorem foldl_buildStep_establishes (ext : BuildNode → String) (now : LFTime)
    (l : List BuildNode) :
    ∀ acc : PassResult, (l.map nodeKey).Nodup →
      ∀ n ∈ l, ∃ r, storeGet (l.foldl (buildStep ext now) acc).store (nodeKey n) = some r ∧
        classify n (some r) = BuildAction.NONE := by
  induction l with
  | nil => intro acc _ n hn; exact absurd hn (by simp)
  | cons m rest ih =>
    intro acc hnd n hn
    have hnd2 : nodeKey m ∉ rest.map nodeKey ∧ (rest.map nodeKey).Nodup := by
      rw [List.map_cons, List.nodup_cons] at hnd
      exact hnd
    rw [List.foldl_cons]
    rcases List.mem_cons.mp hn with h | h
    · subst h
      obtain ⟨r, hr, hcl⟩ := buildStep_establishes ext now acc n
      refine ⟨r, ?_, hcl⟩
      rw [foldl_buildStep_store_ne ext now rest _ (nodeKey n) ?_, hr]
      intro n2 hn2 hkeq
      refine hnd2.1 ?_
      rw [hkeq]
      exact List.mem_map_of_mem nodeKey hn2
    · exact ih (buildStep ext now acc m) hnd2.2 n h

theorem foldl_buildStep_none (ext : BuildNode → String) (now : LFTime)
    (l : List BuildNode) :
    ∀ acc : PassResult,
      (∀ n ∈ l, ∃ r, storeGet acc.store (nodeKey n) = some r ∧
        classify n (some r) = BuildAction.NONE) →
      (l.foldl (buildStep ext now) acc).store = acc.store ∧
      (l.foldl (buildStep ext now) acc).writes = acc.writes ∧
      ∀ p ∈ (l.foldl (buildStep ext now) acc).classified,
        p ∈ acc.classified ∨ p.2 = BuildAction.NONE := by
  induction l with
  | nil => intro acc _; exact ⟨rfl, rfl, fun p hp => Or.inl hp⟩
  | cons m rest ih =>
    intro acc hyp
    obtain ⟨r, hr, hcl⟩ := hyp m (List.mem_cons_self ..)
    have hcm : classify m (storeGet acc.store (nodeKey m)) = BuildAction.NONE := by
      rw [hr]
      exact hcl
    rw [List.foldl_cons, buildStep_none_eq ext now acc m hcm]
    obtain ⟨hs, hw, hc⟩ := ih
      { store := acc.store, writes := acc.writes,
        classified := acc.classified ++ [(m, BuildAction.NONE)] }
      (fun n hn => hyp n (List.mem_cons_of_mem _ hn))
    refine ⟨hs, hw, fun p hp => ?_⟩
    rcases hc p hp with h | h
    · rcases List.mem_append.mp h with h2 | h2
      · exact Or.inl h2
      · have : p = (m, BuildAction.NONE) := by simpa using h2
        exact Or.inr (by rw [this])
    · exact Or.inr h

/-- C2.  Build idempotence (Orchestrator and Classifier modelled from
the spec): for every topology with the spec's "two nodes never share a
record" invariant, a second build pass over an unchanged topology,
immediately after a successful pass, classifies every node `NONE`,
rewrites no Revision Record (the write log is empty), and leaves the
store exactly as the first pass left it — regardless of the starting
store, the external ids handed out, and the pass timestamps. -/
theorem build_idempotent (topo : List BuildNode) (s0 : Store) (ext : BuildNode → String)
    (t1 t2 : LFTime) (hnodup : (topo.map nodeKey).Nodup) :
    (buildPass topo (buildPass topo s0 ext t1).store ext t2).writes = [] ∧
    (buildPass topo (buildPass topo s0 ext t1).store ext t2).store =
      (buildPass topo s0 ext t1).store ∧
    ∀ p ∈ (buildPass topo (buildPass topo s0 ext t1).store ext t2).classified,
      p.2 = BuildAction.NONE := by
  have h1 := foldl_buildStep_establishes ext t1 topo
    { store := s0, writes := [], classified := [] } hnodup
  have h2 := foldl_buildStep_none ext t2 topo
    { store := (buildPass topo s0 ext t1).store, writes := [], classified := [] }
    (fun n hn => h1 n hn)
  refine ⟨h2.2.1, h2.1, fun p hp => ?_⟩
  rcases h2.2.2 p hp with h | h
  · exact absurd h (by simp)
  · exact h

/-- A two-node topology for the C2 witness. -/
def demoTopo : List BuildNode :=
  [{ id := "e/n1", typ := LFTypeNetwork, fingerprint := 10, forceRebuild := false },
   { id := "e/n1/h1", typ := LFTypeHost, fingerprint := 20, forceRebuild := true }]

def demoExt (n : BuildNode) : String := ("ext-") ++ n.id

/-- C2, witness for `build_idempotent` at a concrete topology. -/
theorem build_idempotent_witness :
    (buildPass demoTopo (buildPass demoTopo [] demoExt ("t1")).store demoExt
      ("t2")).writes = [] :=
  (build_idempotent demoTopo [] demoExt ("t1") ("t2") (by decide)).1
